import Mathlib

/-!
Verification of the ChurchMolFS DNA-storage codec.

This file shallowly embeds the Python sources
`church_algorithm_encoder.py`, `church_algorithm_decoder.py` and
`church_interface.py` into Lean and proves properties of the embedding.

Conventions:
* a Python bit string such as `"0101"` is a `List Bool`;
* a Python byte string is a `List Nat` whose entries are < 256;
* DNA bases are the inductive type `Base`;
* the `random.choice` nondeterminism of the encoder is captured by an
  explicit oracle (`Nat → Bool`) selecting, for each emitted base, which
  of the two synonyms of the bit class is drawn;
* file I/O is elided: functions receive and return the data that the
  Python code reads from / writes to files.
-/

namespace ChurchMolFS

/-! ### Bit strings and Python binary formatting -/

/-- Value of a bit string read as a binary numeral (Python `int(bits, 2)`,
big-endian, empty list mapped to 0). -/
def bitsToNat (bits : List Bool) : Nat :=
  bits.foldl (fun a b => 2 * a + b.toNat) 0

/-- Big-endian binary digits of `v`, exactly `w` of them (truncating above
bit `w`).  This is Python `f"{v:0wb}"` whenever `v < 2 ^ w`. -/
def beBits (w v : Nat) : List Bool :=
  (List.range w).map (fun i => v.testBit (w - 1 - i))

/-- Fuel-driven base-2 logarithm (equal to `Nat.log2` once the fuel covers
the argument; structural so that the kernel can evaluate it). -/
def log2Fuel : Nat → Nat → Nat
  | 0, _ => 0
  | fuel + 1, n => if 2 ≤ n then log2Fuel fuel (n / 2) + 1 else 0

/-- Number of binary digits Python prints for `v` (`len(bin(v)) - 2`). -/
def pyBitLen (v : Nat) : Nat :=
  if v = 0 then 1 else log2Fuel v v + 1

/-- Python `f"{v:0wb}"`: the binary numeral of `v`, zero-padded on the left
to a minimum width of `w` (wider when `v` needs more than `w` digits). -/
def pyBin (w v : Nat) : List Bool :=
  beBits (max w (pyBitLen v)) v

/-- Python `f"{byte:08b}"`. -/
def byteToBits (b : Nat) : List Bool :=
  pyBin 8 b

/-- `read_binary_file`: the bit stream of a byte sequence
(`''.join(f"{byte:08b}" for byte in data)`). -/
def fileBits (B : List Nat) : List Bool :=
  (B.map byteToBits).flatten

/-- Python `int(bits, 2).to_bytes((len(bits) + 7) // 8, byteorder='big')`. -/
def bitsToBytesBE (bits : List Bool) : List Nat :=
  let n := (bits.length + 7) / 8
  (List.range n).map (fun j => bitsToNat bits / 256 ^ (n - 1 - j) % 256)

/-- Python `bits.ljust(96, '0')`: pad with zero bits on the right up to
96 characters (longer inputs are kept unchanged). -/
def ljust96 (l : List Bool) : List Bool :=
  l ++ List.replicate (96 - l.length) false

/-- Flip bit `i` of a bit string (used to state checksum soundness). -/
def flipBit (i : Nat) (p : List Bool) : List Bool :=
  p.set i (! p.getD i false)

/-! ### DNA alphabet and the symbol codec
(`church_algorithm_encoder.py` lines 10-36, `church_algorithm_decoder.py`
lines 9-25) -/

/-- The four DNA bases. -/
inductive Base where
  | A | C | G | T
deriving DecidableEq, Repr

/-- `BASE_TO_BIT = {'A': '0', 'C': '0', 'G': '1', 'T': '1'}`. -/
def baseToBit : Base → Bool
  | .A => false
  | .C => false
  | .G => true
  | .T => true

/-- `synonyms = {'A': 'C', 'C': 'A', 'G': 'T', 'T': 'G'}` from
`avoid_homopolymer`. -/
def synonym : Base → Base
  | .A => .C
  | .C => .A
  | .G => .T
  | .T => .G

/-- `random.choice(BIT_TO_BASE[bit])` with the random draw made explicit:
`BIT_TO_BASE = {'0': ['A', 'C'], '1': ['G', 'T']}`; the oracle bit picks
the second synonym when `true`. -/
def chooseBase (bit : Bool) (c : Bool) : Base :=
  match bit, c with
  | false, false => .A
  | false, true  => .C
  | true,  false => .G
  | true,  true  => .T

/-- `avoid_homopolymer(last_bases, base)`: if the last three bases in the
window all equal `base`, substitute the synonym. -/
def avoid_homopolymer (last : List Base) (b : Base) : Base :=
  if 3 ≤ last.length ∧ (last.drop (last.length - 3)).all (fun x => x == b) then
    synonym b
  else b

/-- Sliding-window update in `encode_bits_to_dna`: append the emitted base,
and drop the oldest entry once more than 3 are held. -/
def pushWindow (last : List Base) (b : Base) : List Base :=
  let l := last ++ [b]
  if 3 < l.length then l.tail else l

/-- `encode_bits_to_dna(bits, last_bases)`; `cs` is the stream of random
synonym draws, consumed one per bit. -/
def encode_bits_to_dna : List Bool → List Bool → List Base → List Base
  | [], _, _ => []
  | bit :: bs, cs, last =>
    let base := avoid_homopolymer last (chooseBase bit (cs.headD false))
    base :: encode_bits_to_dna bs cs.tail (pushWindow last base)

/-- `decode_dna_to_bits`. -/
def decode_dna_to_bits (dna : List Base) : List Bool :=
  dna.map baseToBit

/-- Whether a base sequence contains a run of 4 (or more) identical
consecutive symbols. -/
def hasQuadRun : List Base → Bool
  | a :: b :: c :: d :: rest =>
    (a = b ∧ b = c ∧ c = d : Bool) || hasQuadRun (b :: c :: d :: rest)
  | _ => false

/-! ### CRC32 (`zlib.crc32`) -/

/-- The reflected CRC-32 polynomial 0xEDB88320 used by `zlib.crc32`. -/
def crcPoly : Nat := 0xEDB88320

/-- One bit round of the reflected CRC-32. -/
def crcRound (c : Nat) : Nat :=
  if c % 2 = 1 then (c / 2) ^^^ crcPoly else c / 2

/-- Absorb one byte into the running CRC. -/
def crcByteStep (c b : Nat) : Nat :=
  crcRound^[8] (c ^^^ b)

/-- `zlib.crc32(data)` over a byte sequence. -/
def crc32 (bytes : List Nat) : Nat :=
  (bytes.foldl crcByteStep 0xFFFFFFFF) ^^^ 0xFFFFFFFF

/-- `calculate_crc32_checksum(data_bits)`: bytes are
`int(data_bits, 2).to_bytes((len + 7) // 8, 'big')`, the checksum is
returned as `f"{checksum:032b}"`. -/
def calculate_crc32_checksum (dataBits : List Bool) : List Bool :=
  pyBin 32 (crc32 (bitsToBytesBE dataBits))

/-- `verify_crc32_checksum(data_bits, checksum_bits)`. -/
def verify_crc32_checksum (dataBits checksumBits : List Bool) : Bool :=
  calculate_crc32_checksum dataBits = checksumBits

/-! ### Encoder (`bits_to_dna_with_crc32`, `encode_file_to_dna`) -/

/-- A slice of the oracle stream: the `n` random draws starting at
offset `off`. -/
def choiceSeq (R : Nat → Bool) (off n : Nat) : List Bool :=
  (List.range n).map (fun i => R (off + i))

/-- One tuple `(address_bits, data_bits, crc32_checksum_bits, oligo)` of
`bits_to_dna_with_crc32`. -/
structure Oligo where
  addressBits : List Bool
  dataBits : List Bool
  crcBits : List Bool
  dna : List Base
deriving DecidableEq, Repr

/-- Number of loop iterations executed by `bits_to_dna_with_crc32`:
`range(0, len(bits), segment_length * 8)` runs `ceil(len / (8 * segLen))`
times, and the loop breaks as soon as `address > max_address`. -/
def numSegs (bitLen segLen maxAddr : Nat) : Nat :=
  min ((bitLen + 8 * segLen - 1) / (8 * segLen)) maxAddr

/-- The `k`-th data block: `bits[8 * segLen * k :][: 8 * segLen].ljust(96, '0')`. -/
def segPayload (bits : List Bool) (segLen k : Nat) : List Bool :=
  ljust96 ((bits.drop (8 * segLen * k)).take (8 * segLen))

/-- The `k`-th oligo of a `bits_to_dna_with_crc32` run: the 19-bit address
`k + 1`, the `k`-th (zero-padded) 96-bit payload and its CRC32, each field
DNA-encoded from a fresh copy of the (never updated, hence empty)
top-level window, wrapped in the primers.  Each segment draws
19 + 96 + 32 = 147 random synonym choices from the oracle `R`. -/
def mkOligo (bits : List Bool) (fwd rvs : List Base) (segLen : Nat)
    (R : Nat → Bool) (k : Nat) : Oligo :=
  { addressBits := pyBin 19 (k + 1)
    dataBits := segPayload bits segLen k
    crcBits := calculate_crc32_checksum (segPayload bits segLen k)
    dna := fwd ++
      (encode_bits_to_dna (pyBin 19 (k + 1)) (choiceSeq R (147 * k) 19) [] ++
        encode_bits_to_dna (segPayload bits segLen k)
          (choiceSeq R (147 * k + 19) 96) [] ++
        encode_bits_to_dna (calculate_crc32_checksum (segPayload bits segLen k))
          (choiceSeq R (147 * k + 115) 32) []) ++ rvs }

/-- `bits_to_dna_with_crc32(bits, forward_primer, reverse_primer,
segment_length, max_address)` with the random draws made explicit. -/
def bits_to_dna_with_crc32 (bits : List Bool) (fwd rvs : List Base)
    (segLen maxAddr : Nat) (R : Nat → Bool) : List Oligo :=
  (List.range (numSegs bits.length segLen maxAddr)).map
    (mkOligo bits fwd rvs segLen R)

/-- One row of the CSV produced by `save_to_csv_with_blocks`. -/
structure CsvRow where
  blockIndex : Nat
  addressBits : List Bool
  dataBits : List Bool
  crcBits : List Bool
  oligo : List Base
  blockSizeBytes : Nat
  actualBlockBytes : Nat
  totalFileSize : Nat
deriving DecidableEq, Repr

/-- `num_blocks` in `encode_file_to_dna`. -/
def numBlocks (totalBytes blockSize : Nat) : Nat :=
  (totalBytes + blockSize - 1) / blockSize

/-- The bit slice of block `b`:
`bits[b * S * 8 : min(b * S * 8 + S * 8, len(bits))]`. -/
def blockBits (bits : List Bool) (blockSize b : Nat) : List Bool :=
  (bits.drop (b * blockSize * 8)).take (blockSize * 8)

/-- `actual_block_bytes = (len(block_bits) + 7) // 8`. -/
def actualBytesOf (bits : List Bool) (blockSize b : Nat) : Nat :=
  ((blockBits bits blockSize b).length + 7) / 8

/-- `max_address_for_block = min(oligos_per_block, actual_oligos_needed)`
with `oligos_per_block = ceil(S / 12)` and
`actual_oligos_needed = ceil(actual_block_bytes / 12)`. -/
def maxAddrForBlock (bits : List Bool) (blockSize b : Nat) : Nat :=
  min ((blockSize + 12 - 1) / 12) ((actualBytesOf bits blockSize b + 12 - 1) / 12)

/-- The CSV row recorded for one oligo of block `b`
(`save_to_csv_with_blocks` columns). -/
def mkRowOf (b S actual total : Nat) (o : Oligo) : CsvRow :=
  { blockIndex := b
    addressBits := o.addressBits
    dataBits := o.dataBits
    crcBits := o.crcBits
    oligo := o.dna
    blockSizeBytes := S
    actualBlockBytes := actual
    totalFileSize := total }

/-- The list of CSV rows produced by `encode_file_to_dna` for input bytes
`B` and block size `S` (`R b` is the synonym oracle for block `b`). -/
def encodeRows (B : List Nat) (S : Nat) (fwd rvs : List Base)
    (R : Nat → Nat → Bool) : List CsvRow :=
  ((List.range (numBlocks B.length S)).map (fun b =>
    (bits_to_dna_with_crc32 (blockBits (fileBits B) S b) fwd rvs 12
        (maxAddrForBlock (fileBits B) S b) (R b)).map
      (mkRowOf b S (actualBytesOf (fileBits B) S b) B.length))).flatten

/-- Primer validation of `encode_file_to_dna`: a non-empty primer must be
exactly 22 bases, otherwise a `ValueError` is raised. -/
def primersOk (fwd rvs : List Base) : Bool :=
  (fwd.length = 0 ∨ fwd.length = 22 : Bool) && (rvs.length = 0 ∨ rvs.length = 22 : Bool)

/-- `encode_file_to_dna`: `none` models the raised `ValueError` on invalid
primer lengths; otherwise the CSV contents are returned. -/
def encode_file_to_dna (B : List Nat) (S : Nat) (fwd rvs : List Base)
    (R : Nat → Nat → Bool) : Option (List CsvRow) :=
  if primersOk fwd rvs then some (encodeRows B S fwd rvs R) else none

/-! ### Decoder (`extract_oligo_parts`, `decode_oligos_from_csv`) -/

/-- The core of an oligo after stripping a matching forward primer
(`startswith`) and then a matching reverse primer (`endswith`); empty
primers are skipped (Python truthiness). -/
def coreOf (oligo fwd rvs : List Base) : List Base :=
  let c1 := if fwd ≠ [] ∧ oligo.take fwd.length = fwd then oligo.drop fwd.length else oligo
  if rvs ≠ [] ∧ c1.drop (c1.length - rvs.length) = rvs then
    c1.take (c1.length - rvs.length)
  else c1

/-- `extract_oligo_parts(oligo, forward_primer, reverse_primer)`:
`(address_dna, data_dna, crc32_dna)`, or `None` when the stripped core is
shorter than 19 + 96 symbols. -/
def extract_oligo_parts (oligo fwd rvs : List Base) :
    Option (List Base × List Base × List Base) :=
  let core := coreOf oligo fwd rvs
  if 19 + 96 ≤ core.length then
    some (core.take 19, (core.drop 19).take 96, core.drop (19 + 96))
  else none

/-- Python-dict assignment `d[k] = v` on an association list: overwrite in
place when the key exists, append otherwise. -/
def dictInsert (d : List ((Nat × Nat) × List Bool)) (k : Nat × Nat)
    (v : List Bool) : List ((Nat × Nat) × List Bool) :=
  if d.any (fun e => e.1 == k) then
    d.map (fun e => if e.1 = k then (k, v) else e)
  else d ++ [(k, v)]

/-- Same for the `actual_block_sizes` dictionary. -/
def sizesInsert (d : List (Nat × Nat)) (k v : Nat) : List (Nat × Nat) :=
  if d.any (fun e => e.1 == k) then
    d.map (fun e => if e.1 = k then (k, v) else e)
  else d ++ [(k, v)]

/-- Python-set insertion for `block_indices`. -/
def setInsert (s : List Nat) (i : Nat) : List Nat :=
  if s.contains i then s else s ++ [i]

/-- Mutable state of the `decode_oligos_from_csv` loop: the
`decoded_blocks` dictionary, the `block_info` record and the length of
the `errors` list. -/
structure DecodeState where
  dict : List ((Nat × Nat) × List Bool)
  blockSizeBytes : Nat
  blockIndices : List Nat
  actualBlockSizes : List (Nat × Nat)
  totalFileSize : Nat
  valid : Nat
  invalid : Nat
  missing : Nat
  errors : Nat
deriving Repr

/-- Initial `decode_oligos_from_csv` state. -/
def initState : DecodeState :=
  { dict := [], blockSizeBytes := 0, blockIndices := [], actualBlockSizes := []
    totalFileSize := 0, valid := 0, invalid := 0, missing := 0, errors := 0 }

/-- The body of the row loop of `decode_oligos_from_csv`: metadata columns
are read first, then the oligo is unframed, decoded and CRC-classified. -/
def processRow (fwd rvs : List Base) (st : DecodeState) (row : CsvRow) :
    DecodeState :=
  let st :=
    { st with
      blockIndices := setInsert st.blockIndices row.blockIndex
      blockSizeBytes := row.blockSizeBytes
      actualBlockSizes := sizesInsert st.actualBlockSizes row.blockIndex row.actualBlockBytes
      totalFileSize := row.totalFileSize }
  match extract_oligo_parts row.oligo fwd rvs with
  | none => { st with errors := st.errors + 1 }
  | some (addressDna, dataDna, crcDna) =>
    let addressBits := decode_dna_to_bits addressDna
    let dataBits := decode_dna_to_bits dataDna
    if 32 ≤ crcDna.length then
      if verify_crc32_checksum dataBits (decode_dna_to_bits (crcDna.take 32)) then
        { st with
          valid := st.valid + 1
          dict := dictInsert st.dict (row.blockIndex, bitsToNat addressBits) dataBits }
      else
        { st with invalid := st.invalid + 1, errors := st.errors + 1 }
    else
      { st with
        missing := st.missing + 1
        dict := dictInsert st.dict (row.blockIndex, bitsToNat addressBits) dataBits }

/-- The row loop of `decode_oligos_from_csv`. -/
def decode_oligos_from_csv (rows : List CsvRow) (fwd rvs : List Base) :
    DecodeState :=
  rows.foldl (processRow fwd rvs) initState

/-- Generic insertion sort (models Python `sorted`). -/
def insertLe (le : α → α → Bool) (x : α) : List α → List α
  | [] => [x]
  | y :: ys => if le x y then x :: y :: ys else y :: insertLe le x ys

/-- Generic insertion sort (models Python `sorted`). -/
def sortLe (le : α → α → Bool) (l : List α) : List α :=
  l.foldr (insertLe le) []

/-- Lexicographic order on `(block_index, address)` keys. -/
def lexLe (a b : Nat × Nat) : Bool :=
  a.1 < b.1 || (a.1 == b.1 && a.2 ≤ b.2)

/-- Dictionary lookup `decoded_blocks[key]` (first matching entry). -/
def dictGet (d : List ((Nat × Nat) × List Bool)) (k : Nat × Nat) : List Bool :=
  ((d.find? (fun e => e.1 == k)).map (fun e => e.2)).getD []

/-- The reconstructed bit stream of `decode_oligos_from_csv`: data bits
concatenated over `sorted(decoded_blocks.keys())`, trimmed to
`total_file_size * 8` bits when that size is positive. -/
def reassembledBits (st : DecodeState) : List Bool :=
  if 0 < st.totalFileSize then
    (((sortLe lexLe (st.dict.map (fun e => e.1))).map (dictGet st.dict)).flatten).take
      (st.totalFileSize * 8)
  else ((sortLe lexLe (st.dict.map (fun e => e.1))).map (dictGet st.dict)).flatten

/-- The bytes `decode_oligos_from_csv` writes to `output_file`: nothing
when the dictionary is empty or fewer than 8 bits were reassembled,
otherwise the whole bytes of the trimmed bit stream. -/
def decodedBytes (rows : List CsvRow) (fwd rvs : List Base) : List Nat :=
  if (decode_oligos_from_csv rows fwd rvs).dict = [] then []
  else if (reassembledBits (decode_oligos_from_csv rows fwd rvs)).length / 8 = 0 then []
  else
    bitsToBytesBE ((reassembledBits (decode_oligos_from_csv rows fwd rvs)).take
      (8 * ((reassembledBits (decode_oligos_from_csv rows fwd rvs)).length / 8)))

/-- Number of rows of a batch whose oligo unframes successfully (every
such row is CRC-classified as exactly one of valid / invalid / missing). -/
def countOk (rows : List CsvRow) (fwd rvs : List Base) : Nat :=
  (rows.filter (fun r => (extract_oligo_parts r.oligo fwd rvs).isSome)).length

/-- A CSV row around a given oligo (used to instantiate batch-decode
statements on concrete records). -/
def mkRow (o : List Base) : CsvRow :=
  { blockIndex := 0, addressBits := [], dataBits := [], crcBits := []
    oligo := o, blockSizeBytes := 12, actualBlockBytes := 12, totalFileSize := 12 }

/-- A concrete well-formed (CRC-valid) primer-less oligo produced by the
encoder. -/
def oligoValid : List Base :=
  ((bits_to_dna_with_crc32 (List.replicate 96 false) [] [] 12 1
      (fun _ => false)).map (fun o => o.dna)).headD []

/-! ### Reconstruction (`MolFSDev.reconstruct_file`) -/

/-- One successfully decoded copy of a block handed to `reconstruct_file`
(the file I/O and filename parsing around it are external collaborators):
its block index, its `crc_stats['valid']` count, and the bytes its
`decode` call wrote.  The temp path `block_{block_idx}.bin` the bytes go
to depends only on the block index, so all copies of one index write to a
single shared file; a copy whose decode fails writes nothing and updates
nothing, hence does not appear in the list. -/
structure BlockResult where
  blockIdx : Nat
  validCrc : Nat
  data : List Nat
deriving DecidableEq, Repr

/-- A successful decode of a copy overwrites the shared per-index temp
file `block_{i}.bin` with its own bytes (first write creates it). -/
def writeTemp (fs : List (Nat × List Nat)) (i : Nat) (d : List Nat) :
    List (Nat × List Nat) :=
  if fs.any (fun e => e.1 == i) then
    fs.map (fun e => if e.1 = i then (i, d) else e)
  else fs ++ [(i, d)]

/-- Accumulation into `blocks_by_index`.  The stored value is the kept
copy's metadata (`info['crc_stats']['valid']`, the only field the rest of
the function reads); the stored `file` component is the shared per-index
temp path and is therefore determined by the key alone, so it is not part
of the entry.  A new copy of an already-present index replaces the stored
metadata only when it has strictly more CRC-valid segments. -/
def insertBlock (acc : List (Nat × Nat)) (r : BlockResult) :
    List (Nat × Nat) :=
  if acc.any (fun e => e.1 == r.blockIdx) then
    acc.map (fun e =>
      if e.1 = r.blockIdx ∧ e.2 < r.validCrc then (e.1, r.validCrc) else e)
  else acc ++ [(r.blockIdx, r.validCrc)]

/-- One iteration of the `reconstruct_file` loop on a successfully decoded
copy: the `decode` call overwrites the shared temp file, then the
selection updates `blocks_by_index`. -/
def reconStep (st : List (Nat × List Nat) × List (Nat × Nat))
    (r : BlockResult) : List (Nat × List Nat) × List (Nat × Nat) :=
  (writeTemp st.1 r.blockIdx r.data, insertBlock st.2 r)

/-- The loop state (temp-file contents, `blocks_by_index`) after
processing every copy. -/
def reconFold (rs : List BlockResult) :
    List (Nat × List Nat) × List (Nat × Nat) :=
  rs.foldl reconStep ([], [])

/-- Temp-file contents after the loop: index `i` holds the bytes of the
last successfully decoded copy of block `i`. -/
def tempFiles (rs : List BlockResult) : List (Nat × List Nat) :=
  (reconFold rs).1

/-- `blocks_by_index` after the loop. -/
def selectBlocks (rs : List BlockResult) : List (Nat × Nat) :=
  (reconFold rs).2

/-- Reading the shared temp file `block_{i}.bin`. -/
def fileGet (fs : List (Nat × List Nat)) (i : Nat) : List Nat :=
  ((fs.find? (fun e => e.1 == i)).map (fun e => e.2)).getD []

/-- `MolFSDev.reconstruct_file`.  On success, for `block_idx in
range(max_block_idx + 1)` the file stored in the kept entry is read and
concatenated — that file is the shared `block_{block_idx}.bin`, so the
emitted bytes are those of the last successfully decoded copy of each
index, not the selected copy's; on failure no output is written and the
kept indices together with the maximal index (`-1` for an empty set) are
reported. -/
def reconstruct_file (rs : List BlockResult) :
    Except (List Nat × Int) (List Nat) :=
  let keys := (selectBlocks rs).map (fun e => e.1)
  let maxIdx : Int := if keys = [] then -1 else (keys.foldl max 0 : Nat)
  if 0 ≤ maxIdx ∧ (List.range (maxIdx.toNat + 1)).all (fun i => keys.contains i) then
    .ok ((List.range (maxIdx.toNat + 1)).map (fileGet (tempFiles rs))).flatten
  else
    .error (sortLe (fun a b => a ≤ b) keys, maxIdx)

/-- Decidable equality of reconstruction outcomes. -/
instance exceptDecEq {ε α : Type} [DecidableEq ε] [DecidableEq α] :
    DecidableEq (Except ε α)
  | .error a, .error b =>
    if h : a = b then .isTrue (congrArg Except.error h)
    else .isFalse (fun he => h (Except.error.inj he))
  | .error _, .ok _ => .isFalse (fun he => Except.noConfusion he)
  | .ok _, .error _ => .isFalse (fun he => Except.noConfusion he)
  | .ok a, .ok b =>
    if h : a = b then .isTrue (congrArg Except.ok h)
    else .isFalse (fun he => h (Except.ok.inj he))

/-- The per-index selection fold of `reconstruct_file`: starting from the
first copy, a later copy wins only with strictly more CRC-valid segments. -/
def pickBest (c : BlockResult) (cs : List BlockResult) : BlockResult :=
  cs.foldl (fun a r => if a.validCrc < r.validCrc then r else a) c

/-- The block indices kept after redundant-copy selection. -/
def keptIndices (rs : List BlockResult) : List Nat :=
  (selectBlocks rs).map (fun e => e.1)

/-- `max_block_idx` over the kept indices (0 for an empty set). -/
def maxKept (rs : List BlockResult) : Nat :=
  (keptIndices rs).foldl max 0

/-- The completeness gate `all(i in blocks_by_index for i in range(max+1))`. -/
def contiguousKept (rs : List BlockResult) : Bool :=
  (List.range (maxKept rs + 1)).all (fun i => (keptIndices rs).contains i)

/-- The block indices in `[0, max_block_idx]` absent from the kept set. -/
def missingIndices (rs : List BlockResult) : List Nat :=
  (List.range (maxKept rs + 1)).filter (fun i => ¬ (keptIndices rs).contains i)

/-- The success output: the per-index shared temp files, read in
increasing index order and concatenated. -/
def orderedOutput (rs : List BlockResult) : List Nat :=
  ((List.range (maxKept rs + 1)).map (fileGet (tempFiles rs))).flatten

/-! ## Lemmas: bit strings -/

theorem take_add' (l : List α) (m n : Nat) :
    l.take (m + n) = l.take m ++ (l.drop m).take n := by
  rw [List.take_drop]
  conv_lhs => rw [← List.take_append_drop m (l.take (m + n))]
  congr 1
  rw [List.take_take]
  congr 1
  omega

theorem log2Fuel_eq (fuel : Nat) : ∀ n : Nat, n ≤ fuel → log2Fuel fuel n = Nat.log2 n := by
  induction fuel with
  | zero =>
    intro n h
    have hn : n = 0 := by omega
    subst hn
    rw [Nat.log2]
    norm_num [log2Fuel]
  | succ fuel ih =>
    intro n h
    rw [log2Fuel, Nat.log2]
    split
    · next h2 => rw [ih (n / 2) (by omega)]
    · rfl

theorem pyBitLen_eq (v : Nat) :
    pyBitLen v = if v = 0 then 1 else Nat.log2 v + 1 := by
  unfold pyBitLen
  split
  · rfl
  · rw [log2Fuel_eq v v le_rfl]

theorem bitsToNat_foldl (bits : List Bool) (a : Nat) :
    bits.foldl (fun x b => 2 * x + b.toNat) a = a * 2 ^ bits.length + bitsToNat bits := by
  induction bits generalizing a with
  | nil => simp [bitsToNat]
  | cons b t ih =>
    show t.foldl _ (2 * a + b.toNat) = _
    rw [ih]
    have h2 : bitsToNat (b :: t) = (2 * 0 + b.toNat) * 2 ^ t.length + bitsToNat t := by
      show t.foldl _ (2 * 0 + b.toNat) = _
      rw [ih]
    rw [h2]
    simp only [List.length_cons, pow_succ]
    ring

theorem bitsToNat_cons (b : Bool) (t : List Bool) :
    bitsToNat (b :: t) = b.toNat * 2 ^ t.length + bitsToNat t := by
  show t.foldl _ (2 * 0 + b.toNat) = _
  rw [bitsToNat_foldl]
  ring

theorem bitsToNat_append (xs ys : List Bool) :
    bitsToNat (xs ++ ys) = bitsToNat xs * 2 ^ ys.length + bitsToNat ys := by
  show (xs ++ ys).foldl _ 0 = _
  rw [List.foldl_append, bitsToNat_foldl]
  rfl

theorem bitsToNat_lt (bits : List Bool) : bitsToNat bits < 2 ^ bits.length := by
  induction bits with
  | nil => simp [bitsToNat]
  | cons b t ih =>
    rw [bitsToNat_cons]
    simp only [List.length_cons, pow_succ]
    cases b <;> simp only [Bool.toNat_true, Bool.toNat_false] <;> omega

theorem bitsToNat_inj : ∀ xs ys : List Bool, xs.length = ys.length →
    bitsToNat xs = bitsToNat ys → xs = ys
  | [], [], _, _ => rfl
  | x :: xs, y :: ys, hl, hv => by
    simp only [List.length_cons, Nat.add_right_cancel_iff] at hl
    rw [bitsToNat_cons, bitsToNat_cons, hl] at hv
    have hx := bitsToNat_lt xs
    have hy := bitsToNat_lt ys
    rw [hl] at hx
    cases x <;> cases y <;>
        simp only [Bool.toNat_true, Bool.toNat_false, Nat.zero_mul, Nat.one_mul,
          Nat.zero_add] at hv
    · rw [bitsToNat_inj xs ys hl hv]
    · omega
    · omega
    · rw [bitsToNat_inj xs ys hl (by omega)]

theorem beBits_succ (w v : Nat) : beBits (w + 1) v = v.testBit w :: beBits w v := by
  unfold beBits
  rw [List.range_succ_eq_map, List.map_cons, List.map_map]
  refine congrArg₂ List.cons ?_ (List.map_congr_left ?_)
  · congr 1
  · intro i _
    simp only [Function.comp_apply, Nat.succ_eq_add_one]
    congr 1
    omega

theorem beBits_length (w v : Nat) : (beBits w v).length = w := by
  simp [beBits]

theorem bitsToNat_beBits (w v : Nat) : bitsToNat (beBits w v) = v % 2 ^ w := by
  induction w with
  | zero => simp [beBits, bitsToNat, Nat.mod_one]
  | succ w ih =>
    rw [beBits_succ, bitsToNat_cons, beBits_length, ih, Nat.toNat_testBit,
      Nat.mod_pow_succ]
    ring

theorem pyBin_eq_beBits {w v : Nat} (h1 : 1 ≤ w) (h2 : v < 2 ^ w) :
    pyBin w v = beBits w v := by
  unfold pyBin
  rw [pyBitLen_eq]
  congr 1
  rcases Nat.eq_zero_or_pos v with hv | hv
  · subst hv
    rw [if_pos rfl]
    omega
  · have hlog : Nat.log2 v < w := (Nat.log2_lt (by omega)).mpr h2
    rw [if_neg (by omega)]
    omega

theorem pyBin_length {w v : Nat} (h1 : 1 ≤ w) (h2 : v < 2 ^ w) :
    (pyBin w v).length = w := by
  rw [pyBin_eq_beBits h1 h2, beBits_length]

theorem bitsToNat_pyBin {w v : Nat} (h1 : 1 ≤ w) (h2 : v < 2 ^ w) :
    bitsToNat (pyBin w v) = v := by
  rw [pyBin_eq_beBits h1 h2, bitsToNat_beBits, Nat.mod_eq_of_lt h2]

theorem byteToBits_length {b : Nat} (h : b < 256) : (byteToBits b).length = 8 :=
  pyBin_length (by norm_num) h

theorem bitsToNat_byteToBits {b : Nat} (h : b < 256) :
    bitsToNat (byteToBits b) = b :=
  bitsToNat_pyBin (by norm_num) h

theorem bitsToBytesBE_eq_chunkVals (bits : List Bool) (m : Nat)
    (h : bits.length = 8 * m) :
    bitsToBytesBE bits =
      (List.range m).map (fun j => bitsToNat ((bits.drop (8 * j)).take 8)) := by
  unfold bitsToBytesBE
  have hn : (bits.length + 7) / 8 = m := by omega
  rw [hn]
  refine List.map_congr_left ?_
  intro j hj
  rw [List.mem_range] at hj
  have hsplit : bits = bits.take (8 * (j + 1)) ++ bits.drop (8 * (j + 1)) :=
    (List.take_append_drop _ _).symm
  have hlt : bitsToNat (bits.drop (8 * (j + 1))) < 2 ^ (8 * (m - 1 - j)) := by
    have := bitsToNat_lt (bits.drop (8 * (j + 1)))
    have hlen : (bits.drop (8 * (j + 1))).length = 8 * (m - 1 - j) := by
      rw [List.length_drop, h]
      omega
    rwa [hlen] at this
  have hD : (256 : Nat) ^ (m - 1 - j) = 2 ^ (8 * (m - 1 - j)) := by
    rw [pow_mul]
    norm_num
  have hdiv : bitsToNat bits / 256 ^ (m - 1 - j) = bitsToNat (bits.take (8 * (j + 1))) := by
    conv_lhs => rw [hsplit]
    rw [bitsToNat_append, hD]
    have hlen : (bits.drop (8 * (j + 1))).length = 8 * (m - 1 - j) := by
      rw [List.length_drop, h]
      omega
    rw [hlen]
    have hnum : bitsToNat (bits.take (8 * (j + 1))) * 2 ^ (8 * (m - 1 - j)) +
        bitsToNat (bits.drop (8 * (j + 1))) =
        bitsToNat (bits.drop (8 * (j + 1))) +
          2 ^ (8 * (m - 1 - j)) * bitsToNat (bits.take (8 * (j + 1))) := by
      ring
    rw [hnum, Nat.add_mul_div_left _ _ (Nat.pos_pow_of_pos _ (by norm_num)),
      Nat.div_eq_of_lt hlt, Nat.zero_add]
  rw [hdiv]
  have h81 : 8 * (j + 1) = 8 * j + 8 := by ring
  rw [h81, take_add' bits (8 * j) 8, bitsToNat_append]
  have hclen : ((bits.drop (8 * j)).take 8).length = 8 := by
    rw [List.length_take, List.length_drop, h]
    omega
  rw [hclen]
  have hclt : bitsToNat ((bits.drop (8 * j)).take 8) < 256 := by
    have := bitsToNat_lt ((bits.drop (8 * j)).take 8)
    rw [hclen] at this
    norm_num at this
    exact this
  have h256 : (2 : Nat) ^ 8 = 256 := by norm_num
  rw [h256]
  omega

/-! ## Lemmas: the symbol codec -/

theorem baseToBit_synonym (b : Base) : baseToBit (synonym b) = baseToBit b := by
  cases b <;> rfl

theorem baseToBit_chooseBase (bit c : Bool) : baseToBit (chooseBase bit c) = bit := by
  cases bit <;> cases c <;> rfl

theorem synonym_ne (b : Base) : synonym b ≠ b := by
  cases b <;> simp [synonym]

theorem baseToBit_avoid_homopolymer (last : List Base) (b : Base) :
    baseToBit (avoid_homopolymer last b) = baseToBit b := by
  unfold avoid_homopolymer
  split
  · rw [baseToBit_synonym]
  · rfl

theorem encode_bits_to_dna_length (bits cs : List Bool) (last : List Base) :
    (encode_bits_to_dna bits cs last).length = bits.length := by
  induction bits generalizing cs last with
  | nil => rfl
  | cons b bs ih => simp [encode_bits_to_dna, ih]

theorem decode_encode_id (bits cs : List Bool) (last : List Base) :
    decode_dna_to_bits (encode_bits_to_dna bits cs last) = bits := by
  induction bits generalizing cs last with
  | nil => rfl
  | cons b bs ih =>
    simp only [encode_bits_to_dna, decode_dna_to_bits, List.map_cons]
    rw [baseToBit_avoid_homopolymer, baseToBit_chooseBase]
    exact congrArg _ (ih _ _)

theorem hasQuadRun_short (l : List Base) (h : l.length ≤ 3) : hasQuadRun l = false := by
  match l with
  | [] => rfl
  | [_] => rfl
  | [_, _] => rfl
  | [_, _, _] => rfl
  | _ :: _ :: _ :: _ :: _ => simp at h

theorem avoid_homopolymer_triple (x raw : Base) :
    avoid_homopolymer [x, x, x] raw ≠ x := by
  unfold avoid_homopolymer
  split
  · next hcond =>
    have hx : x = raw := by
      have h2 := hcond.2
      simp only [List.length_cons, List.length_nil, List.drop] at h2
      simp only [List.all_cons, List.all_nil, Bool.and_true, Bool.and_self,
        beq_iff_eq] at h2
      exact h2
    intro he
    exact synonym_ne x (by rw [← hx] at he; exact he)
  · next hcond =>
    intro he
    subst he
    exact hcond ⟨by simp, by simp⟩

theorem pushWindow_three (x y z b : Base) :
    pushWindow [x, y, z] b = [y, z, b] := rfl

theorem hasQuadRun_append_encode :
    ∀ (bits cs : List Bool) (last : List Base), last.length ≤ 3 →
      hasQuadRun (last ++ encode_bits_to_dna bits cs last) = false := by
  intro bits
  induction bits with
  | nil =>
    intro cs last h
    rw [show encode_bits_to_dna [] cs last = [] from rfl, List.append_nil]
    exact hasQuadRun_short last h
  | cons b bs ih =>
    intro cs last hlen
    show hasQuadRun (last ++ (avoid_homopolymer last (chooseBase b (cs.headD false)) ::
      encode_bits_to_dna bs cs.tail
        (pushWindow last (avoid_homopolymer last (chooseBase b (cs.headD false)))))) = false
    rcases last with _ | ⟨x, _ | ⟨y, _ | ⟨z, _ | ⟨w, t⟩⟩⟩⟩
    · rw [List.append_cons ([] : List Base)]
      exact ih cs.tail _ (by simp)
    · rw [List.append_cons [x]]
      exact ih cs.tail _ (by simp)
    · rw [List.append_cons [x, y]]
      exact ih cs.tail _ (by simp)
    · set base := avoid_homopolymer [x, y, z] (chooseBase b (cs.headD false)) with hbase
      show hasQuadRun (x :: y :: z :: base :: _) = false
      rw [show ∀ r, hasQuadRun (x :: y :: z :: base :: r) =
          ((x = y ∧ y = z ∧ z = base : Bool) || hasQuadRun (y :: z :: base :: r))
        from fun r => rfl]
      have h1 : (x = y ∧ y = z ∧ z = base : Bool) = false := by
        simp only [decide_eq_false_iff_not]
        rintro ⟨hxy, hyz, hzb⟩
        subst hxy
        subst hyz
        exact avoid_homopolymer_triple x (chooseBase b (cs.headD false)) hzb.symm
      rw [h1, Bool.false_or, pushWindow_three]
      exact ih cs.tail [y, z, base] (by simp)
    · simp at hlen

/-! ## Lemmas: CRC32 -/

theorem xor_left_cancel {a b c : Nat} (h : a ^^^ b = a ^^^ c) : b = c := by
  have h2 : a ^^^ (a ^^^ b) = a ^^^ (a ^^^ c) := by rw [h]
  rwa [← Nat.xor_assoc, ← Nat.xor_assoc, Nat.xor_self, Nat.zero_xor,
    Nat.zero_xor] at h2

theorem xor_right_cancel {a b c : Nat} (h : b ^^^ a = c ^^^ a) : b = c := by
  rw [Nat.xor_comm b a, Nat.xor_comm c a] at h
  exact xor_left_cancel h

theorem crcPoly_lt : crcPoly < 2 ^ 32 := by norm_num [crcPoly]

theorem xor_crcPoly_ge {a : Nat} (h : a < 2 ^ 31) : 2 ^ 31 ≤ a ^^^ crcPoly := by
  refine Nat.testBit_implies_ge (i := 31) ?_
  rw [Nat.testBit_xor, Nat.testBit_lt_two_pow h]
  have hp : Nat.testBit crcPoly 31 = true := by decide
  rw [hp]
  rfl

theorem crcRound_lt {c : Nat} (h : c < 2 ^ 32) : crcRound c < 2 ^ 32 := by
  unfold crcRound
  split
  · exact Nat.xor_lt_two_pow (by omega) crcPoly_lt
  · omega

theorem crcRound_inj {c c' : Nat} (hc : c < 2 ^ 32) (hc' : c' < 2 ^ 32)
    (h : crcRound c = crcRound c') : c = c' := by
  unfold crcRound at h
  by_cases h1 : c % 2 = 1 <;> by_cases h2 : c' % 2 = 1 <;>
    simp only [h1, h2, if_pos, if_neg, if_true, if_false] at h
  · have hdiv : c / 2 = c' / 2 := xor_right_cancel h
    omega
  · exfalso
    have hge := xor_crcPoly_ge (a := c / 2) (by omega)
    have hlt : c' / 2 < 2 ^ 31 := by omega
    omega
  · exfalso
    have hge := xor_crcPoly_ge (a := c' / 2) (by omega)
    have hlt : c / 2 < 2 ^ 31 := by omega
    omega
  · omega

theorem crcRound_iterate_lt (n : Nat) {c : Nat} (h : c < 2 ^ 32) :
    crcRound^[n] c < 2 ^ 32 := by
  induction n generalizing c with
  | zero => simpa using h
  | succ n ih =>
    rw [Function.iterate_succ_apply]
    exact ih (crcRound_lt h)

theorem crcRound_iterate_inj (n : Nat) {c c' : Nat} (hc : c < 2 ^ 32)
    (hc' : c' < 2 ^ 32) (h : crcRound^[n] c = crcRound^[n] c') : c = c' := by
  induction n generalizing c c' with
  | zero => simpa using h
  | succ n ih =>
    rw [Function.iterate_succ_apply, Function.iterate_succ_apply] at h
    exact crcRound_inj hc hc' (ih (crcRound_lt hc) (crcRound_lt hc') h)

theorem crcByteStep_lt {c b : Nat} (hc : c < 2 ^ 32) (hb : b < 256) :
    crcByteStep c b < 2 ^ 32 :=
  crcRound_iterate_lt 8 (Nat.xor_lt_two_pow hc (lt_trans hb (by norm_num)))

theorem crcByteStep_inj_left {c c' b : Nat} (hc : c < 2 ^ 32) (hc' : c' < 2 ^ 32)
    (hb : b < 256) (h : crcByteStep c b = crcByteStep c' b) : c = c' := by
  have hb32 : b < 2 ^ 32 := lt_trans hb (by norm_num)
  exact xor_right_cancel (crcRound_iterate_inj 8 (Nat.xor_lt_two_pow hc hb32)
    (Nat.xor_lt_two_pow hc' hb32) h)

theorem crcByteStep_inj_right {c b b' : Nat} (hc : c < 2 ^ 32) (hb : b < 256)
    (hb' : b' < 256) (h : crcByteStep c b = crcByteStep c b') : b = b' := by
  have hb32 : b < 2 ^ 32 := lt_trans hb (by norm_num)
  have hb32' : b' < 2 ^ 32 := lt_trans hb' (by norm_num)
  exact xor_left_cancel (crcRound_iterate_inj 8 (Nat.xor_lt_two_pow hc hb32)
    (Nat.xor_lt_two_pow hc hb32') h)

theorem foldl_crcByteStep_lt : ∀ (bytes : List Nat), (∀ x ∈ bytes, x < 256) →
    ∀ {c : Nat}, c < 2 ^ 32 → bytes.foldl crcByteStep c < 2 ^ 32
  | [], _, _, hc => hc
  | b :: bs, hb, _, hc =>
    foldl_crcByteStep_lt bs (fun x hx => hb x (List.mem_cons_of_mem _ hx))
      (crcByteStep_lt hc (hb b (List.mem_cons_self _ _)))

theorem foldl_crcByteStep_ne : ∀ (bytes : List Nat), (∀ x ∈ bytes, x < 256) →
    ∀ {c c' : Nat}, c < 2 ^ 32 → c' < 2 ^ 32 → c ≠ c' →
    bytes.foldl crcByteStep c ≠ bytes.foldl crcByteStep c'
  | [], _, _, _, _, _, hne => by simpa using hne
  | b :: bs, hb, _, _, hc, hc', hne => by
    simp only [List.foldl_cons]
    refine foldl_crcByteStep_ne bs (fun x hx => hb x (List.mem_cons_of_mem _ hx))
      (crcByteStep_lt hc (hb b (List.mem_cons_self _ _)))
      (crcByteStep_lt hc' (hb b (List.mem_cons_self _ _))) ?_
    intro he
    exact hne (crcByteStep_inj_left hc hc' (hb b (List.mem_cons_self _ _)) he)

theorem crc32_lt (bytes : List Nat) (hb : ∀ x ∈ bytes, x < 256) :
    crc32 bytes < 2 ^ 32 := by
  unfold crc32
  exact Nat.xor_lt_two_pow (foldl_crcByteStep_lt bytes hb (by norm_num)) (by norm_num)

theorem crc32_ne_of_single_diff (pre post : List Nat) {b b' : Nat}
    (hpre : ∀ x ∈ pre, x < 256) (hpost : ∀ x ∈ post, x < 256)
    (hb : b < 256) (hb' : b' < 256) (hne : b ≠ b') :
    crc32 (pre ++ b :: post) ≠ crc32 (pre ++ b' :: post) := by
  unfold crc32
  intro h
  have h2 : (pre ++ b :: post).foldl crcByteStep 0xFFFFFFFF =
      (pre ++ b' :: post).foldl crcByteStep 0xFFFFFFFF := xor_right_cancel h
  rw [List.foldl_append, List.foldl_append, List.foldl_cons, List.foldl_cons] at h2
  have hc : pre.foldl crcByteStep 0xFFFFFFFF < 2 ^ 32 :=
    foldl_crcByteStep_lt pre hpre (by norm_num)
  refine foldl_crcByteStep_ne post hpost (crcByteStep_lt hc hb)
    (crcByteStep_lt hc hb') ?_ h2
  intro he
  exact hne (crcByteStep_inj_right hc hb hb' he)

theorem bitsToBytesBE_all_lt (bits : List Bool) :
    ∀ x ∈ bitsToBytesBE bits, x < 256 := by
  intro x hx
  unfold bitsToBytesBE at hx
  simp only [List.mem_map] at hx
  obtain ⟨j, _, rfl⟩ := hx
  exact Nat.mod_lt _ (by norm_num)

theorem map_range_split {α : Type} (f : Nat → α) {n q : Nat} (h : q < n) :
    (List.range n).map f =
      (List.range q).map f ++ f q ::
        ((List.range (n - q - 1)).map (fun j => f (q + 1 + j))) := by
  have hn : n = q + (1 + (n - q - 1)) := by omega
  conv_lhs => rw [hn]
  rw [List.range_add, List.map_append]
  congr 1
  have h1 : (1 : Nat) + (n - q - 1) = (n - q - 1) + 1 := by omega
  rw [h1, List.range_succ_eq_map, List.map_cons, List.map_cons, List.map_map,
    List.map_map]
  congr 1
  refine List.map_congr_left ?_
  intro j _
  simp only [Function.comp_apply, Nat.succ_eq_add_one]
  congr 1
  omega

theorem flipBit_length (i : Nat) (p : List Bool) :
    (flipBit i p).length = p.length := by
  simp [flipBit]

theorem chunk_flipBit_eq {p : List Bool} {i j : Nat} (h96 : p.length = 96)
    (_hi : i < 96) (hne : j ≠ i / 8) :
    ((flipBit i p).drop (8 * j)).take 8 = (p.drop (8 * j)).take 8 := by
  apply List.ext_getElem
  · simp [flipBit]
  · intro t h1 h2
    simp only [List.getElem_take, List.getElem_drop]
    have ht : t < 8 := by
      simp only [List.length_take, List.length_drop, flipBit_length, h96] at h1
      omega
    unfold flipBit
    rw [List.getElem_set_ne]
    omega

theorem chunk_flipBit_ne {p : List Bool} {i : Nat} (h96 : p.length = 96)
    (hi : i < 96) :
    ((flipBit i p).drop (8 * (i / 8))).take 8 ≠ (p.drop (8 * (i / 8))).take 8 := by
  intro h
  have hidx : 8 * (i / 8) + i % 8 = i := by omega
  have h1 := congrArg (fun l => l[i % 8]?) h
  simp only [List.getElem?_take_of_lt (show i % 8 < 8 by omega),
    List.getElem?_drop, hidx] at h1
  unfold flipBit at h1
  rw [List.getElem?_set_self (by omega)] at h1
  have hval : p[i]? = some (p.getD i false) := by
    rw [List.getD_eq_getElem?_getD, List.getElem?_eq_getElem (by omega)]
    rfl
  rw [hval] at h1
  simp at h1

theorem chunk_length_eight {p : List Bool} {j : Nat} (h96 : p.length = 96)
    (hj : j < 12) : ((p.drop (8 * j)).take 8).length = 8 := by
  simp only [List.length_take, List.length_drop, h96]
  omega

theorem chunkVal_lt (p : List Bool) (j : Nat) :
    bitsToNat ((p.drop (8 * j)).take 8) < 256 := by
  have h := bitsToNat_lt ((p.drop (8 * j)).take 8)
  have hlen : ((p.drop (8 * j)).take 8).length ≤ 8 := by
    simp only [List.length_take]
    omega
  calc bitsToNat ((p.drop (8 * j)).take 8) < 2 ^ ((p.drop (8 * j)).take 8).length := h
    _ ≤ 2 ^ 8 := Nat.pow_le_pow_right (by norm_num) hlen
    _ = 256 := by norm_num

theorem crc32_flipBit_ne {p : List Bool} {i : Nat} (h96 : p.length = 96)
    (hi : i < 96) :
    crc32 (bitsToBytesBE (flipBit i p)) ≠ crc32 (bitsToBytesBE p) := by
  have h96' : (flipBit i p).length = 96 := by rw [flipBit_length, h96]
  have hq : i / 8 < 12 := by omega
  rw [bitsToBytesBE_eq_chunkVals p 12 (by omega),
    bitsToBytesBE_eq_chunkVals (flipBit i p) 12 (by omega),
    map_range_split _ hq, map_range_split _ hq]
  have hpre : (List.range (i / 8)).map
      (fun j => bitsToNat (((flipBit i p).drop (8 * j)).take 8)) =
      (List.range (i / 8)).map (fun j => bitsToNat ((p.drop (8 * j)).take 8)) := by
    refine List.map_congr_left ?_
    intro j hj
    rw [List.mem_range] at hj
    rw [chunk_flipBit_eq h96 hi (by omega)]
  have hpost : (List.range (12 - i / 8 - 1)).map
      (fun j => bitsToNat (((flipBit i p).drop (8 * (i / 8 + 1 + j))).take 8)) =
      (List.range (12 - i / 8 - 1)).map
        (fun j => bitsToNat ((p.drop (8 * (i / 8 + 1 + j))).take 8)) := by
    refine List.map_congr_left ?_
    intro j hj
    rw [chunk_flipBit_eq h96 hi (by omega)]
  rw [hpre, hpost]
  refine crc32_ne_of_single_diff _ _ ?_ ?_ ?_ ?_ ?_
  · intro x hx
    simp only [List.mem_map] at hx
    obtain ⟨j, _, rfl⟩ := hx
    exact chunkVal_lt p j
  · intro x hx
    simp only [List.mem_map] at hx
    obtain ⟨j, _, rfl⟩ := hx
    exact chunkVal_lt p _
  · exact chunkVal_lt (flipBit i p) _
  · exact chunkVal_lt p _
  · intro he
    refine chunk_flipBit_ne h96 hi (bitsToNat_inj _ _ ?_ he)
    rw [chunk_length_eight h96' hq, chunk_length_eight h96 hq]

/-! ## Claim C3 -/

/-- C3: for every 96-bit payload, verifying the payload against its own
computed CRC32 checksum succeeds; and flipping any single bit of the
payload while keeping the original checksum makes `verify_crc32_checksum`
return false. -/
theorem c3_checksum_soundness :
    (∀ p : List Bool, p.length = 96 →
        verify_crc32_checksum p (calculate_crc32_checksum p) = true) ∧
    (∀ (p : List Bool) (i : Nat), p.length = 96 → i < 96 →
        verify_crc32_checksum (flipBit i p) (calculate_crc32_checksum p) = false) := by
  constructor
  · intro p _
    simp [verify_crc32_checksum]
  · intro p i h96 hi
    have hcalc : calculate_crc32_checksum (flipBit i p) ≠
        calculate_crc32_checksum p := by
      intro he
      apply crc32_flipBit_ne h96 hi
      unfold calculate_crc32_checksum at he
      have h1 : crc32 (bitsToBytesBE (flipBit i p)) < 2 ^ 32 :=
        crc32_lt _ (bitsToBytesBE_all_lt _)
      have h2 : crc32 (bitsToBytesBE p) < 2 ^ 32 :=
        crc32_lt _ (bitsToBytesBE_all_lt _)
      have hv := congrArg bitsToNat he
      rwa [bitsToNat_pyBin (by norm_num) h1, bitsToNat_pyBin (by norm_num) h2] at hv
    simp [verify_crc32_checksum, hcalc]

/-- C3 witness: both halves instantiated at the all-zero 96-bit payload
and bit position 5. -/
theorem c3_checksum_soundness_witness :
    verify_crc32_checksum (List.replicate 96 false)
        (calculate_crc32_checksum (List.replicate 96 false)) = true ∧
    verify_crc32_checksum (flipBit 5 (List.replicate 96 false))
        (calculate_crc32_checksum (List.replicate 96 false)) = false :=
  ⟨c3_checksum_soundness.1 (List.replicate 96 false) (by simp),
   c3_checksum_soundness.2 (List.replicate 96 false) 5 (by simp) (by norm_num)⟩

/-! ## Claim C10 -/

/-- C10: the symbol-to-bit decode maps A and C to bit 0 and G and T to
bit 1 (a true partition of the alphabet); the encoder's homopolymer
substitution always replaces a symbol by the other symbol of the same bit
class; the synonym chooser emits a symbol of the requested bit class; and
therefore decoding any symbol sequence the encoder can produce for a bit
string returns that bit string, independent of the synonym choices. -/
theorem c10_decode_invariant_under_synonym_choice :
    (∀ b : Base, (baseToBit b = false ↔ (b = Base.A ∨ b = Base.C)) ∧
      (baseToBit b = true ↔ (b = Base.G ∨ b = Base.T))) ∧
    (∀ b : Base, baseToBit (synonym b) = baseToBit b) ∧
    (∀ bit c : Bool, baseToBit (chooseBase bit c) = bit) ∧
    (∀ (bits cs : List Bool) (last : List Base),
      decode_dna_to_bits (encode_bits_to_dna bits cs last) = bits) :=
  ⟨fun b => by cases b <;> simp [baseToBit],
   baseToBit_synonym, baseToBit_chooseBase, decode_encode_id⟩

/-! ## Claim C2 -/

/-- C2 (counterexample): the claim "every symbol sequence produced by the
encoder contains no run of 4 or more identical consecutive symbols" is
false.  Encoding the 96-bit all-ones payload with the synonym oracle that
always picks the second synonym (a choice sequence `random.choice` can
produce) yields a single oligo whose symbol sequence does contain a quad
run: the address field ends in T and the payload field, encoded from a
fresh window, starts with TTT. -/
theorem c2_counterexample :
    (bits_to_dna_with_crc32 (List.replicate 96 true) [] [] 12 524288
        (fun _ => true)).map (fun o => hasQuadRun o.dna) = [true] := by
  decide

/-- C2 (amended): every single encoded field region (address, payload or
checksum, each produced by one `encode_bits_to_dna` call starting from the
encoder's never-updated, hence empty, top-level window) contains no run of
4 or more identical consecutive symbols, for every input bit pattern and
every synonym choice; runs of 4 can only arise across the boundaries
between concatenated fields (or into the primers). -/
theorem c2_no_quad_run_within_field (bits cs : List Bool) :
    hasQuadRun (encode_bits_to_dna bits cs []) = false := by
  have h := hasQuadRun_append_encode bits cs [] (by simp)
  rwa [List.nil_append] at h

/-! ## Claim C8 -/

set_option maxRecDepth 40000 in
/-- C8 (counterexample): the claim that encoding "returns partial output
together with a clear signal that truncation occurred" and "never silently
truncates without signalling" is false.  With `max_address = 1`, encoding
192 zero bits (which needs 2 segments) returns exactly the same value as
encoding only the first 96 bits: one segment and no signal of any kind, so
the truncation is observationally silent. -/
theorem c8_counterexample :
    bits_to_dna_with_crc32 (List.replicate 192 false) [] [] 12 1 (fun _ => false) =
      bits_to_dna_with_crc32 (List.replicate 96 false) [] [] 12 1 (fun _ => false) ∧
    (bits_to_dna_with_crc32 (List.replicate 192 false) [] [] 12 1
        (fun _ => false)).length = 1 := by
  constructor
  · decide
  · decide

/-- C8 (amended): when segmentation would exceed the configured maximum
address, `bits_to_dna_with_crc32` stops early and returns partial output —
exactly `min(ceil(len(bits) / (8 * segment_length)), max_address)`
segments — but no signal that truncation occurred accompanies the output
(the partial output is indistinguishable from encoding a shorter input). -/
theorem c8_truncated_output_length (bits : List Bool) (fwd rvs : List Base)
    (segLen maxAddr : Nat) (R : Nat → Bool) :
    (bits_to_dna_with_crc32 bits fwd rvs segLen maxAddr R).length =
      min ((bits.length + 8 * segLen - 1) / (8 * segLen)) maxAddr := by
  simp [bits_to_dna_with_crc32, numSegs]

/-! ## Claim C7 -/

theorem extract_none_of_short {oligo fwd rvs : List Base}
    (h : (coreOf oligo fwd rvs).length < 19 + 96) :
    extract_oligo_parts oligo fwd rvs = none := by
  unfold extract_oligo_parts
  rw [if_neg (by omega)]

/-- C7: when the core left after stripping matching flanks is shorter than
19 + 96 symbols, `extract_oligo_parts` returns a recoverable `none`
instead of throwing; and in the batch decode loop such a record is a pure
skip-and-continue: the error counter is incremented, the decoded
dictionary and the CRC statistics are untouched (only the metadata columns
already read are recorded), and the remaining records are still folded. -/
theorem c7_short_record_skip_and_continue :
    (∀ oligo fwd rvs : List Base, (coreOf oligo fwd rvs).length < 19 + 96 →
      extract_oligo_parts oligo fwd rvs = none) ∧
    (∀ (fwd rvs : List Base) (rows₁ rows₂ : List CsvRow) (row : CsvRow),
      (coreOf row.oligo fwd rvs).length < 19 + 96 →
      decode_oligos_from_csv (rows₁ ++ row :: rows₂) fwd rvs =
        List.foldl (processRow fwd rvs)
          (let st := decode_oligos_from_csv rows₁ fwd rvs
           { dict := st.dict
             blockSizeBytes := row.blockSizeBytes
             blockIndices := setInsert st.blockIndices row.blockIndex
             actualBlockSizes := sizesInsert st.actualBlockSizes row.blockIndex
               row.actualBlockBytes
             totalFileSize := row.totalFileSize
             valid := st.valid
             invalid := st.invalid
             missing := st.missing
             errors := st.errors + 1 }) rows₂) := by
  refine ⟨fun _ _ _ h => extract_none_of_short h, ?_⟩
  intro fwd rvs rows₁ rows₂ row hshort
  unfold decode_oligos_from_csv
  rw [List.foldl_append, List.foldl_cons]
  show List.foldl _ (processRow fwd rvs _ row) _ = _
  congr 1
  unfold processRow
  rw [extract_none_of_short hshort]

/-- C7 witness: instantiated with empty primers, an empty record between
two well-formed rows, whose empty core is shorter than 115 symbols. -/
theorem c7_short_record_skip_and_continue_witness :
    extract_oligo_parts [] [] [] = none ∧
    decode_oligos_from_csv
        ([] ++ ({ blockIndex := 0, addressBits := [], dataBits := [], crcBits := []
                  oligo := [], blockSizeBytes := 12, actualBlockBytes := 0
                  totalFileSize := 0 } : CsvRow) :: []) [] [] =
      List.foldl (processRow [] [])
        (let st := decode_oligos_from_csv [] [] []
         { dict := st.dict
           blockSizeBytes := 12
           blockIndices := setInsert st.blockIndices 0
           actualBlockSizes := sizesInsert st.actualBlockSizes 0 0
           totalFileSize := 0
           valid := st.valid
           invalid := st.invalid
           missing := st.missing
           errors := st.errors + 1 }) [] :=
  ⟨c7_short_record_skip_and_continue.1 [] [] [] (by decide),
   c7_short_record_skip_and_continue.2 [] [] [] []
     { blockIndex := 0, addressBits := [], dataBits := [], crcBits := []
       oligo := [], blockSizeBytes := 12, actualBlockBytes := 0
       totalFileSize := 0 } (by decide)⟩

/-! ## Claim C9 -/

theorem processRow_counts (fwd rvs : List Base) (st : DecodeState) (row : CsvRow) :
    (processRow fwd rvs st row).valid + (processRow fwd rvs st row).invalid +
        (processRow fwd rvs st row).missing =
      st.valid + st.invalid + st.missing +
        (if (extract_oligo_parts row.oligo fwd rvs).isSome then 1 else 0) := by
  unfold processRow
  cases hx : extract_oligo_parts row.oligo fwd rvs with
  | none => simp
  | some t =>
    obtain ⟨a, d, c⟩ := t
    simp only [Option.isSome_some, if_true]
    split
    · split <;> simp <;> omega
    · simp
      omega

theorem decode_counts_aux (fwd rvs : List Base) :
    ∀ (rows : List CsvRow) (st : DecodeState),
      (List.foldl (processRow fwd rvs) st rows).valid +
          (List.foldl (processRow fwd rvs) st rows).invalid +
          (List.foldl (processRow fwd rvs) st rows).missing =
        st.valid + st.invalid + st.missing + countOk rows fwd rvs := by
  intro rows
  induction rows with
  | nil => intro st; simp [countOk]
  | cons r rows ih =>
    intro st
    rw [List.foldl_cons, ih (processRow fwd rvs st r), processRow_counts]
    unfold countOk
    rw [List.filter_cons]
    split
    · simp only [List.length_cons]
      omega
    · omega

/-- C9: during batch decode every successfully unframed record is counted
under exactly one of valid / invalid / missing (their counts sum to the
number of unframed records); a segment whose recomputed CRC32 differs from
its decoded 32-symbol checksum field is counted under invalid and
contributes nothing to the decoded dictionary (the loop continues with the
remaining rows); a verifying segment is counted under valid and stored; a
segment whose checksum region is shorter than 32 symbols is counted under
missing and stored. -/
theorem c9_invalid_discarded_and_counted :
    (∀ (fwd rvs : List Base) (rows : List CsvRow),
      (decode_oligos_from_csv rows fwd rvs).valid +
          (decode_oligos_from_csv rows fwd rvs).invalid +
          (decode_oligos_from_csv rows fwd rvs).missing = countOk rows fwd rvs) ∧
    (∀ (fwd rvs : List Base) (rows₁ rows₂ : List CsvRow) (row : CsvRow)
        (a d c : List Base),
      extract_oligo_parts row.oligo fwd rvs = some (a, d, c) →
      32 ≤ c.length →
      verify_crc32_checksum (decode_dna_to_bits d)
          (decode_dna_to_bits (c.take 32)) = false →
      decode_oligos_from_csv (rows₁ ++ row :: rows₂) fwd rvs =
        List.foldl (processRow fwd rvs)
          (let st := decode_oligos_from_csv rows₁ fwd rvs
           { dict := st.dict
             blockSizeBytes := row.blockSizeBytes
             blockIndices := setInsert st.blockIndices row.blockIndex
             actualBlockSizes := sizesInsert st.actualBlockSizes row.blockIndex
               row.actualBlockBytes
             totalFileSize := row.totalFileSize
             valid := st.valid
             invalid := st.invalid + 1
             missing := st.missing
             errors := st.errors + 1 }) rows₂) ∧
    (∀ (fwd rvs : List Base) (rows₁ rows₂ : List CsvRow) (row : CsvRow)
        (a d c : List Base),
      extract_oligo_parts row.oligo fwd rvs = some (a, d, c) →
      32 ≤ c.length →
      verify_crc32_checksum (decode_dna_to_bits d)
          (decode_dna_to_bits (c.take 32)) = true →
      decode_oligos_from_csv (rows₁ ++ row :: rows₂) fwd rvs =
        List.foldl (processRow fwd rvs)
          (let st := decode_oligos_from_csv rows₁ fwd rvs
           { dict := dictInsert st.dict
               (row.blockIndex, bitsToNat (decode_dna_to_bits a))
               (decode_dna_to_bits d)
             blockSizeBytes := row.blockSizeBytes
             blockIndices := setInsert st.blockIndices row.blockIndex
             actualBlockSizes := sizesInsert st.actualBlockSizes row.blockIndex
               row.actualBlockBytes
             totalFileSize := row.totalFileSize
             valid := st.valid + 1
             invalid := st.invalid
             missing := st.missing
             errors := st.errors }) rows₂) ∧
    (∀ (fwd rvs : List Base) (rows₁ rows₂ : List CsvRow) (row : CsvRow)
        (a d c : List Base),
      extract_oligo_parts row.oligo fwd rvs = some (a, d, c) →
      c.length < 32 →
      decode_oligos_from_csv (rows₁ ++ row :: rows₂) fwd rvs =
        List.foldl (processRow fwd rvs)
          (let st := decode_oligos_from_csv rows₁ fwd rvs
           { dict := dictInsert st.dict
               (row.blockIndex, bitsToNat (decode_dna_to_bits a))
               (decode_dna_to_bits d)
             blockSizeBytes := row.blockSizeBytes
             blockIndices := setInsert st.blockIndices row.blockIndex
             actualBlockSizes := sizesInsert st.actualBlockSizes row.blockIndex
               row.actualBlockBytes
             totalFileSize := row.totalFileSize
             valid := st.valid
             invalid := st.invalid
             missing := st.missing + 1
             errors := st.errors }) rows₂) := by
  refine ⟨?_, ?_, ?_, ?_⟩
  · intro fwd rvs rows
    unfold decode_oligos_from_csv
    rw [decode_counts_aux]
    simp [initState]
  · intro fwd rvs rows₁ rows₂ row a d c hx hlen hv
    unfold decode_oligos_from_csv
    rw [List.foldl_append, List.foldl_cons]
    congr 1
    unfold processRow
    rw [hx]
    simp only [if_pos hlen, hv]
    rfl
  · intro fwd rvs rows₁ rows₂ row a d c hx hlen hv
    unfold decode_oligos_from_csv
    rw [List.foldl_append, List.foldl_cons]
    congr 1
    unfold processRow
    rw [hx]
    simp only [if_pos hlen, hv]
    rfl
  · intro fwd rvs rows₁ rows₂ row a d c hx hlen
    unfold decode_oligos_from_csv
    rw [List.foldl_append, List.foldl_cons]
    congr 1
    unfold processRow
    rw [hx]
    have hneg : ¬ 32 ≤ c.length := by omega
    simp only [if_neg hneg]

set_option maxRecDepth 40000 in
/-- C9 witness: the three CRC classes instantiated on concrete records —
an all-A 147-symbol oligo (checksum mismatch: discarded, counted invalid),
an encoder-produced oligo (counted valid and stored) and a 120-symbol
oligo whose checksum region has only 5 symbols (counted missing). -/
theorem c9_invalid_discarded_and_counted_witness :
    (decode_oligos_from_csv ([] ++ mkRow (List.replicate 147 Base.A) :: []) [] []).invalid = 1 ∧
    (decode_oligos_from_csv ([] ++ mkRow (List.replicate 147 Base.A) :: []) [] []).dict = [] ∧
    (decode_oligos_from_csv ([] ++ mkRow oligoValid :: []) [] []).valid = 1 ∧
    (decode_oligos_from_csv ([] ++ mkRow (List.replicate 120 Base.A) :: []) [] []).missing = 1 := by
  have hI := c9_invalid_discarded_and_counted.2.1 [] [] [] []
    (mkRow (List.replicate 147 Base.A))
    ((coreOf (List.replicate 147 Base.A) [] []).take 19)
    (((coreOf (List.replicate 147 Base.A) [] []).drop 19).take 96)
    ((coreOf (List.replicate 147 Base.A) [] []).drop (19 + 96))
    (by decide) (by decide) (by decide)
  have hV := c9_invalid_discarded_and_counted.2.2.1 [] [] [] []
    (mkRow oligoValid)
    ((coreOf oligoValid [] []).take 19)
    (((coreOf oligoValid [] []).drop 19).take 96)
    ((coreOf oligoValid [] []).drop (19 + 96))
    (by decide) (by decide) (by decide)
  have hM := c9_invalid_discarded_and_counted.2.2.2 [] [] [] []
    (mkRow (List.replicate 120 Base.A))
    ((coreOf (List.replicate 120 Base.A) [] []).take 19)
    (((coreOf (List.replicate 120 Base.A) [] []).drop 19).take 96)
    ((coreOf (List.replicate 120 Base.A) [] []).drop (19 + 96))
    (by decide) (by decide)
  refine ⟨?_, ?_, ?_, ?_⟩
  · rw [hI]
    decide
  · rw [hI]
    decide
  · rw [hV]
    decide
  · rw [hM]
    decide

/-! ## Claim C6 -/

theorem reconFold_eq (rs : List BlockResult) :
    reconFold rs = (rs.foldl (fun fs r => writeTemp fs r.blockIdx r.data) [],
      rs.foldl insertBlock []) := by
  have h : ∀ (rs : List BlockResult) (fs : List (Nat × List Nat))
      (acc : List (Nat × Nat)),
      rs.foldl reconStep (fs, acc) =
        (rs.foldl (fun fs r => writeTemp fs r.blockIdx r.data) fs,
          rs.foldl insertBlock acc) := by
    intro rs
    induction rs with
    | nil => intro fs acc; rfl
    | cons r t ih =>
      intro fs acc
      rw [List.foldl_cons, List.foldl_cons, List.foldl_cons]
      exact ih _ _
  exact h rs [] []

theorem tempFiles_eq (rs : List BlockResult) :
    tempFiles rs = rs.foldl (fun fs r => writeTemp fs r.blockIdx r.data) [] := by
  unfold tempFiles
  rw [reconFold_eq]

theorem selectBlocks_eq (rs : List BlockResult) :
    selectBlocks rs = rs.foldl insertBlock [] := by
  unfold selectBlocks
  rw [reconFold_eq]

theorem find?_map_replace (acc : List (Nat × Nat)) (r : BlockResult)
    (idx : Nat) (h : r.blockIdx ≠ idx) :
    (acc.map (fun e =>
        if e.1 = r.blockIdx ∧ e.2 < r.validCrc then (e.1, r.validCrc) else e)).find?
        (fun e => e.1 == idx) =
      acc.find? (fun e => e.1 == idx) := by
  induction acc with
  | nil => rfl
  | cons e acc ih =>
    rw [List.map_cons]
    by_cases hk : e.1 = idx
    · have hif : (if e.1 = r.blockIdx ∧ e.2 < r.validCrc then (e.1, r.validCrc) else e)
          = e := by
        rw [if_neg]
        rintro ⟨h1, _⟩
        exact h (h1 ▸ hk)
      rw [hif, List.find?_cons_of_pos _ (by simp [hk]),
        List.find?_cons_of_pos _ (by simp [hk])]
    · have hkey : (if e.1 = r.blockIdx ∧ e.2 < r.validCrc then (e.1, r.validCrc) else e).1
          = e.1 := by
        split <;> rfl
      rw [List.find?_cons_of_neg _ (by simp [hkey, hk]),
        List.find?_cons_of_neg _ (by simp [hk])]
      exact ih

theorem find?_map_replace_eq (acc : List (Nat × Nat)) (r : BlockResult) :
    (acc.map (fun e =>
        if e.1 = r.blockIdx ∧ e.2 < r.validCrc then (e.1, r.validCrc) else e)).find?
        (fun e => e.1 == r.blockIdx) =
      match acc.find? (fun e => e.1 == r.blockIdx) with
      | none => none
      | some e => some (e.1, if e.2 < r.validCrc then r.validCrc else e.2) := by
  induction acc with
  | nil => rfl
  | cons e acc ih =>
    rw [List.map_cons]
    by_cases hk : e.1 = r.blockIdx
    · by_cases hb : e.2 < r.validCrc
      · rw [if_pos ⟨hk, hb⟩, List.find?_cons_of_pos _ (by simp [hk]),
          List.find?_cons_of_pos _ (by simp [hk])]
        simp [hb]
      · rw [if_neg (by rintro ⟨_, hb'⟩; exact hb hb'),
          List.find?_cons_of_pos _ (by simp [hk]),
          List.find?_cons_of_pos _ (by simp [hk])]
        simp [hb]
    · have hkey : (if e.1 = r.blockIdx ∧ e.2 < r.validCrc then (e.1, r.validCrc) else e).1
          = e.1 := by
        split <;> rfl
      rw [if_neg (by rintro ⟨h1, _⟩; exact hk h1),
        List.find?_cons_of_neg _ (by simp [hk]),
        List.find?_cons_of_neg _ (by simp [hk])]
      exact ih

theorem insertBlock_find_ne (acc : List (Nat × Nat)) (r : BlockResult)
    (idx : Nat) (h : r.blockIdx ≠ idx) :
    (insertBlock acc r).find? (fun e => e.1 == idx) =
      acc.find? (fun e => e.1 == idx) := by
  unfold insertBlock
  split
  · exact find?_map_replace acc r idx h
  · rw [List.find?_append]
    have hsingle : ([(r.blockIdx, r.validCrc)].find? (fun e => e.1 == idx)) = none := by
      simp [h]
    rw [hsingle]
    cases acc.find? (fun e => e.1 == idx) <;> rfl

theorem insertBlock_find_eq (acc : List (Nat × Nat)) (r : BlockResult) :
    (insertBlock acc r).find? (fun e => e.1 == r.blockIdx) =
      match acc.find? (fun e => e.1 == r.blockIdx) with
      | none => some (r.blockIdx, r.validCrc)
      | some e => some (e.1, if e.2 < r.validCrc then r.validCrc else e.2) := by
  unfold insertBlock
  split
  · next hany =>
    rw [find?_map_replace_eq]
    cases hf : acc.find? (fun e => e.1 == r.blockIdx) with
    | none =>
      exfalso
      rw [List.find?_eq_none] at hf
      rw [List.any_eq_true] at hany
      obtain ⟨e, he, hkey⟩ := hany
      exact hf e he hkey
    | some e => rfl
  · next hany =>
    have hf : acc.find? (fun e => e.1 == r.blockIdx) = none := by
      rw [List.find?_eq_none]
      intro e he hkey
      exact hany (List.any_eq_true.mpr ⟨e, he, hkey⟩)
    rw [List.find?_append, hf]
    simp

theorem selectBlocks_append_singleton (rs : List BlockResult) (r : BlockResult) :
    selectBlocks (rs ++ [r]) = insertBlock (selectBlocks rs) r := by
  rw [selectBlocks_eq, selectBlocks_eq, List.foldl_append]
  rfl

theorem find?_map_overwrite (fs : List (Nat × List Nat)) (i : Nat)
    (d : List Nat) (idx : Nat) (h : i ≠ idx) :
    (fs.map (fun e => if e.1 = i then (i, d) else e)).find?
        (fun e => e.1 == idx) =
      fs.find? (fun e => e.1 == idx) := by
  induction fs with
  | nil => rfl
  | cons e t ih =>
    rw [List.map_cons]
    by_cases hk : e.1 = idx
    · have hif : (if e.1 = i then (i, d) else e) = e := by
        rw [if_neg]
        intro h1
        exact h (by rw [← h1, hk])
      rw [hif, List.find?_cons_of_pos _ (by simp [hk]),
        List.find?_cons_of_pos _ (by simp [hk])]
    · have hkey : (if e.1 = i then (i, d) else e).1 ≠ idx := by
        split
        · exact h
        · exact hk
      rw [List.find?_cons_of_neg _ (by simp [hkey]),
        List.find?_cons_of_neg _ (by simp [hk])]
      exact ih

theorem find?_map_overwrite_eq (fs : List (Nat × List Nat)) (i : Nat)
    (d : List Nat) :
    (fs.map (fun e => if e.1 = i then (i, d) else e)).find?
        (fun e => e.1 == i) =
      match fs.find? (fun e => e.1 == i) with
      | none => none
      | some _ => some (i, d) := by
  induction fs with
  | nil => rfl
  | cons e t ih =>
    rw [List.map_cons]
    by_cases hk : e.1 = i
    · rw [if_pos hk, List.find?_cons_of_pos _ (by simp),
        List.find?_cons_of_pos _ (by simp [hk])]
    · rw [if_neg hk, List.find?_cons_of_neg _ (by simp [hk]),
        List.find?_cons_of_neg _ (by simp [hk])]
      exact ih

theorem writeTemp_find_eq (fs : List (Nat × List Nat)) (i : Nat) (d : List Nat) :
    (writeTemp fs i d).find? (fun e => e.1 == i) = some (i, d) := by
  unfold writeTemp
  split
  · next hany =>
    rw [find?_map_overwrite_eq]
    cases hf : fs.find? (fun e => e.1 == i) with
    | none =>
      exfalso
      rw [List.find?_eq_none] at hf
      obtain ⟨e, he, hkey⟩ := List.any_eq_true.mp hany
      exact hf e he hkey
    | some e => rfl
  · next hany =>
    have hf : fs.find? (fun e => e.1 == i) = none := by
      rw [List.find?_eq_none]
      intro e he hkey
      exact hany (List.any_eq_true.mpr ⟨e, he, hkey⟩)
    rw [List.find?_append, hf]
    simp

theorem writeTemp_find_ne (fs : List (Nat × List Nat)) (i : Nat) (d : List Nat)
    (idx : Nat) (h : i ≠ idx) :
    (writeTemp fs i d).find? (fun e => e.1 == idx) =
      fs.find? (fun e => e.1 == idx) := by
  unfold writeTemp
  split
  · exact find?_map_overwrite fs i d idx h
  · rw [List.find?_append]
    have hsingle : ([(i, d)].find? (fun e => e.1 == idx)) = none := by
      simp [h]
    rw [hsingle]
    cases fs.find? (fun e => e.1 == idx) <;> rfl

theorem tempFiles_append_singleton (rs : List BlockResult) (r : BlockResult) :
    tempFiles (rs ++ [r]) = writeTemp (tempFiles rs) r.blockIdx r.data := by
  rw [tempFiles_eq, tempFiles_eq, List.foldl_append]
  rfl

theorem tempFiles_find (rs : List BlockResult) (idx : Nat) :
    (tempFiles rs).find? (fun e => e.1 == idx) =
      match (rs.filter (fun r => r.blockIdx == idx)).getLast? with
      | none => none
      | some r => some (idx, r.data) := by
  induction rs using List.reverseRecOn with
  | nil => rfl
  | append_singleton rs r ih =>
    rw [tempFiles_append_singleton, List.filter_append]
    by_cases hk : r.blockIdx = idx
    · subst hk
      rw [writeTemp_find_eq]
      have hfil : List.filter (fun x => x.blockIdx == r.blockIdx) [r] = [r] := by
        simp
      rw [hfil]
      have hlast : (List.filter (fun x => x.blockIdx == r.blockIdx) rs
          ++ [r]).getLast? = some r := by
        simp
      rw [hlast]
    · rw [writeTemp_find_ne _ _ _ _ hk, ih]
      have hfil : List.filter (fun x => x.blockIdx == idx) [r] = [] := by
        simp [hk]
      rw [hfil, List.append_nil]

theorem fileGet_last (rs : List BlockResult) (idx : Nat) :
    fileGet (tempFiles rs) idx =
      (((rs.filter (fun r => r.blockIdx == idx)).getLast?).map
        (fun r => r.data)).getD [] := by
  unfold fileGet
  rw [tempFiles_find]
  cases (rs.filter (fun r => r.blockIdx == idx)).getLast? <;> rfl

theorem pickBest_append_singleton (c : BlockResult) (cs : List BlockResult)
    (r : BlockResult) :
    pickBest c (cs ++ [r]) =
      if (pickBest c cs).validCrc < r.validCrc then r else pickBest c cs := by
  unfold pickBest
  rw [List.foldl_append]
  rfl

theorem selectBlocks_find (rs : List BlockResult) (idx : Nat) :
    (selectBlocks rs).find? (fun e => e.1 == idx) =
      match rs.filter (fun r => r.blockIdx == idx) with
      | [] => none
      | c :: cs => some (idx, (pickBest c cs).validCrc) := by
  induction rs using List.reverseRecOn with
  | nil => rfl
  | append_singleton rs r ih =>
    rw [selectBlocks_append_singleton, List.filter_append]
    by_cases hk : r.blockIdx = idx
    · subst hk
      rw [insertBlock_find_eq, ih]
      have hfil : List.filter (fun x => x.blockIdx == r.blockIdx) [r] = [r] := by
        simp
      rw [hfil]
      cases hc : rs.filter (fun x => x.blockIdx == r.blockIdx) with
      | nil => rfl
      | cons c cs =>
        have hcc : (c :: cs) ++ [r] = c :: (cs ++ [r]) := rfl
        rw [hcc]
        show some (r.blockIdx, if (pickBest c cs).validCrc < r.validCrc
            then r.validCrc else (pickBest c cs).validCrc)
          = some (r.blockIdx, (pickBest c (cs ++ [r])).validCrc)
        rw [pickBest_append_singleton]
        by_cases hb : (pickBest c cs).validCrc < r.validCrc
        · rw [if_pos hb, if_pos hb]
        · rw [if_neg hb, if_neg hb]
    · rw [insertBlock_find_ne _ _ _ hk, ih]
      have hfil : List.filter (fun x => x.blockIdx == idx) [r] = [] := by
        simp [hk]
      rw [hfil, List.append_nil]

theorem pickBest_spec (c : BlockResult) (cs : List BlockResult) :
    ∃ l₁ l₂, c :: cs = l₁ ++ pickBest c cs :: l₂ ∧
      (∀ x ∈ l₁, x.validCrc < (pickBest c cs).validCrc) ∧
      (∀ x ∈ l₂, x.validCrc ≤ (pickBest c cs).validCrc) := by
  induction cs using List.reverseRecOn with
  | nil => exact ⟨[], [], rfl, by simp, by simp⟩
  | append_singleton cs r ih =>
    obtain ⟨l₁, l₂, heq, h₁, h₂⟩ := ih
    by_cases hb : (pickBest c cs).validCrc < r.validCrc
    · refine ⟨l₁ ++ pickBest c cs :: l₂, [], ?_, ?_, by simp⟩
      · rw [pickBest_append_singleton, if_pos hb,
          show c :: (cs ++ [r]) = (c :: cs) ++ [r] from rfl, heq]
      · rw [pickBest_append_singleton, if_pos hb]
        intro x hx
        rcases List.mem_append.mp hx with h | h
        · exact lt_trans (h₁ x h) hb
        · rcases List.mem_cons.mp h with rfl | h
          · exact hb
          · exact lt_of_le_of_lt (h₂ x h) hb
    · refine ⟨l₁, l₂ ++ [r], ?_, ?_, ?_⟩
      · rw [pickBest_append_singleton, if_neg hb,
          show c :: (cs ++ [r]) = (c :: cs) ++ [r] from rfl, heq]
        simp
      · rw [pickBest_append_singleton, if_neg hb]
        exact h₁
      · rw [pickBest_append_singleton, if_neg hb]
        intro x hx
        rcases List.mem_append.mp hx with h | h
        · exact h₂ x h
        · rw [List.mem_singleton.mp h]
          omega

/-- C6: what selection actually retains versus what is emitted.  For every
block index, the `blocks_by_index` entry `reconstruct_file` keeps carries
the crc_stats of the first supplied copy attaining the maximum count of
CRC-valid segments (every earlier copy has strictly fewer valid segments,
every later copy at most as many) — but, because every copy of an index is
decoded into the one shared temp file `block_{idx}.bin`, the bytes that
file holds (and that the success path emits) are those of the LAST
successfully decoded copy, irrespective of the selection.  The claim's
"the copy kept is the one with the highest count of CRC-valid segments"
is therefore false at the data level. -/
theorem c6_selection_stats_vs_emitted_data :
    ∀ (rs : List BlockResult) (idx : Nat) (c : BlockResult) (cs : List BlockResult),
      rs.filter (fun r => r.blockIdx == idx) = c :: cs →
      (∃ (sel : BlockResult) (l₁ l₂ : List BlockResult),
        (selectBlocks rs).find? (fun e => e.1 == idx) = some (idx, sel.validCrc) ∧
        c :: cs = l₁ ++ sel :: l₂ ∧
        (∀ x ∈ l₁, x.validCrc < sel.validCrc) ∧
        (∀ x ∈ l₂, x.validCrc ≤ sel.validCrc)) ∧
      fileGet (tempFiles rs) idx =
        (((c :: cs).getLast?).map (fun r => r.data)).getD [] := by
  intro rs idx c cs hf
  constructor
  · obtain ⟨l₁, l₂, heq, h₁, h₂⟩ := pickBest_spec c cs
    refine ⟨pickBest c cs, l₁, l₂, ?_, heq, h₁, h₂⟩
    rw [selectBlocks_find, hf]
  · rw [fileGet_last, hf]

/-- C6 counterexample to the claim's flagship scenario: copy A of block 0
with 3 CRC-valid segments and bytes `[65]`, followed by copy B of the same
block with 1 valid segment and bytes `[66]`.  The kept metadata is A's
(valid count 3), but reconstruction emits B's bytes, because B's decode
was the last write to the shared `block_0.bin`. -/
theorem c6_counterexample :
    reconstruct_file [⟨0, 3, [65]⟩, ⟨0, 1, [66]⟩] = .ok [66] ∧
    selectBlocks [⟨0, 3, [65]⟩, ⟨0, 1, [66]⟩] = [(0, 3)] ∧
    (pickBest ⟨0, 3, [65]⟩ [⟨0, 1, [66]⟩]).data = [65] ∧
    [66] ≠ [65] := by decide

/-- C6 witness: the general statement instantiated on the two copies of
block 0 — the kept valid count is copy A's, the shared file holds copy B's
bytes. -/
theorem c6_selection_stats_vs_emitted_data_witness :
    (∃ (sel : BlockResult) (l₁ l₂ : List BlockResult),
      (selectBlocks [⟨0, 3, [65]⟩, ⟨0, 1, [66]⟩]).find? (fun e => e.1 == 0) =
        some (0, sel.validCrc) ∧
      (⟨0, 3, [65]⟩ : BlockResult) :: [⟨0, 1, [66]⟩] = l₁ ++ sel :: l₂ ∧
      (∀ x ∈ l₁, x.validCrc < sel.validCrc) ∧
      (∀ x ∈ l₂, x.validCrc ≤ sel.validCrc)) ∧
    fileGet (tempFiles [⟨0, 3, [65]⟩, ⟨0, 1, [66]⟩]) 0 =
      ((((⟨0, 3, [65]⟩ : BlockResult) :: [⟨0, 1, [66]⟩]).getLast?).map
        (fun r => r.data)).getD [] :=
  c6_selection_stats_vs_emitted_data [⟨0, 3, [65]⟩, ⟨0, 1, [66]⟩] 0 ⟨0, 3, [65]⟩
    [⟨0, 1, [66]⟩] (by decide)

/-! ## Claim C5 -/

/-- C5 (amended): when the kept block indices do not form the contiguous
range `[0, max_block_index]`, reconstruction fails — no output bytes are
produced, and the reported kept-index list and maximal index determine the
(non-empty) set of missing indices; over a contiguous kept set it succeeds
and concatenates, in increasing index order, the per-index shared temp
files — i.e. for each index the bytes of the LAST successfully decoded
copy, which coincide with the selected copy's bytes only when each index
was supplied once (see the counterexample for the duplicate-copy case the
original claim gets wrong). -/
theorem c5_completeness_gate (rs : List BlockResult)
    (hne : selectBlocks rs ≠ []) :
    (contiguousKept rs = true →
      reconstruct_file rs = .ok (orderedOutput rs)) ∧
    (contiguousKept rs = false →
      reconstruct_file rs =
        .error (sortLe (fun a b => a ≤ b) (keptIndices rs), (maxKept rs : Int)) ∧
      missingIndices rs ≠ [] ∧
      (∀ i, i ∈ missingIndices rs ↔
        i < maxKept rs + 1 ∧ ¬ (keptIndices rs).contains i = true)) := by
  have hkeys : (selectBlocks rs).map (fun e => e.1) ≠ [] := by
    intro h
    exact hne (List.map_eq_nil_iff.mp h)
  constructor
  · intro hcont
    simp only [reconstruct_file]
    rw [if_neg hkeys]
    rw [if_pos]
    · unfold orderedOutput maxKept keptIndices
      simp
    · refine ⟨by positivity, ?_⟩
      have := hcont
      unfold contiguousKept maxKept keptIndices at this
      simpa using this
  · intro hcont
    refine ⟨?_, ?_, ?_⟩
    · simp only [reconstruct_file]
      rw [if_neg hkeys]
      rw [if_neg]
      · rfl
      · rintro ⟨-, hall⟩
        unfold contiguousKept maxKept keptIndices at hcont
        simp only [Int.toNat_natCast] at hall
        rw [hcont] at hall
        exact Bool.false_ne_true hall
    · unfold contiguousKept at hcont
      rw [List.all_eq_false] at hcont
      obtain ⟨i, hmem, hnc⟩ := hcont
      intro hnil
      have : i ∈ missingIndices rs := by
        unfold missingIndices
        rw [List.mem_filter]
        exact ⟨hmem, by simpa using hnc⟩
      rw [hnil] at this
      exact List.not_mem_nil i this
    · intro i
      unfold missingIndices
      rw [List.mem_filter, List.mem_range]
      simp

/-- C5 witness: kept blocks {0, 1, 3} (index 2 missing) fail with a report
that determines the missing set {2}; the full contiguous set {0, 1, 2, 3}
succeeds with the blocks concatenated in index order. -/
theorem c5_completeness_gate_witness :
    reconstruct_file [⟨0, 1, [10]⟩, ⟨1, 1, [11]⟩, ⟨3, 1, [13]⟩] =
        .error ([0, 1, 3], 3) ∧
    missingIndices [⟨0, 1, [10]⟩, ⟨1, 1, [11]⟩, ⟨3, 1, [13]⟩] = [2] ∧
    reconstruct_file [⟨0, 1, [10]⟩, ⟨1, 1, [11]⟩, ⟨2, 1, [12]⟩, ⟨3, 1, [13]⟩] =
        .ok [10, 11, 12, 13] := by
  have hfail := (c5_completeness_gate [⟨0, 1, [10]⟩, ⟨1, 1, [11]⟩, ⟨3, 1, [13]⟩]
    (by decide)).2 (by decide)
  have hok := (c5_completeness_gate
    [⟨0, 1, [10]⟩, ⟨1, 1, [11]⟩, ⟨2, 1, [12]⟩, ⟨3, 1, [13]⟩] (by decide)).1 (by decide)
  refine ⟨?_, by decide, ?_⟩
  · rw [hfail.1]
    decide
  · rw [hok]
    decide

/-- C5 counterexample to the original claim's success half: two copies of
block 0 (the kept one, with 5 valid segments, holds bytes `[1, 2]`; a
later one with 2 valid segments holds `[3, 4]`) and one copy of block 1
with bytes `[9]`.  The kept set `{0, 1}` is contiguous and reconstruction
succeeds, but the emitted stream is `[3, 4, 9]` — not the concatenation
`[1, 2, 9]` of the kept copies' bytes, because block 0's shared temp file
was last written by the unselected second copy. -/
theorem c5_counterexample :
    reconstruct_file [⟨0, 5, [1, 2]⟩, ⟨0, 2, [3, 4]⟩, ⟨1, 2, [9]⟩] =
        .ok [3, 4, 9] ∧
    (pickBest ⟨0, 5, [1, 2]⟩ [⟨0, 2, [3, 4]⟩]).data = [1, 2] ∧
    selectBlocks [⟨0, 5, [1, 2]⟩, ⟨0, 2, [3, 4]⟩, ⟨1, 2, [9]⟩] =
        [(0, 5), (1, 2)] ∧
    ([3, 4, 9] : List Nat) ≠ [1, 2] ++ [9] := by decide

/-! ## Lemmas: encoder structure -/

theorem fileBits_length (B : List Nat) (hB : ∀ x ∈ B, x < 256) :
    (fileBits B).length = 8 * B.length := by
  induction B with
  | nil => rfl
  | cons b t ih =>
    unfold fileBits at *
    rw [List.map_cons, List.flatten_cons, List.length_append,
      byteToBits_length (hB b (List.mem_cons_self _ _)),
      ih (fun x hx => hB x (List.mem_cons_of_mem _ hx)), List.length_cons]
    ring

theorem mul_lt_of_lt_numBlocks {n S b : Nat} (hS : 0 < S)
    (hb : b < numBlocks n S) : b * S < n := by
  unfold numBlocks at hb
  have h1 : b + 1 ≤ (n + S - 1) / S := hb
  have h2 : (b + 1) * S ≤ ((n + S - 1) / S) * S := Nat.mul_le_mul_right _ h1
  have h3 : ((n + S - 1) / S) * S ≤ n + S - 1 := Nat.div_mul_le_self _ _
  have h4 : (b + 1) * S = b * S + S := by ring
  omega

theorem blockBits_length (bits : List Bool) (S b : Nat) :
    (blockBits bits S b).length = min (S * 8) (bits.length - b * S * 8) := by
  simp [blockBits]

theorem block_params (B : List Nat) (S b : Nat) (hB : ∀ x ∈ B, x < 256)
    (hS : 0 < S) (hb : b < numBlocks B.length S) :
    (blockBits (fileBits B) S b).length = 8 * actualBytesOf (fileBits B) S b ∧
    0 < actualBytesOf (fileBits B) S b ∧
    actualBytesOf (fileBits B) S b ≤ S ∧
    numSegs (blockBits (fileBits B) S b).length 12
        (maxAddrForBlock (fileBits B) S b) =
      (actualBytesOf (fileBits B) S b + 12 - 1) / 12 := by
  have hmul := mul_lt_of_lt_numBlocks hS hb
  have hbl : (blockBits (fileBits B) S b).length =
      min (S * 8) (8 * B.length - b * S * 8) := by
    rw [blockBits_length, fileBits_length B hB]
  have hbS : b * S * 8 = 8 * (b * S) := by ring
  rw [hbS] at hbl
  unfold numSegs maxAddrForBlock actualBytesOf
  rw [hbl]
  refine ⟨?_, ?_, ?_, ?_⟩ <;> omega

theorem coreOf_encoded (fwd rvs core : List Base) :
    coreOf (fwd ++ core ++ rvs) fwd rvs = core := by
  unfold coreOf
  have h1 : (if fwd ≠ [] ∧ (fwd ++ core ++ rvs).take fwd.length = fwd then
      (fwd ++ core ++ rvs).drop fwd.length else fwd ++ core ++ rvs) = core ++ rvs := by
    by_cases hf : fwd = []
    · subst hf
      simp
    · rw [List.append_assoc, if_pos ⟨hf, List.take_left fwd (core ++ rvs)⟩,
        List.drop_left]
  rw [h1]
  by_cases hr : rvs = []
  · subst hr
    rw [if_neg (by simp), List.append_nil]
  · have hlen : (core ++ rvs).length - rvs.length = core.length := by
      rw [List.length_append]
      omega
    rw [if_pos ⟨hr, by rw [hlen, List.drop_left]⟩, hlen, List.take_left]

theorem extract_encoded (fwd rvs aDna dDna cDna : List Base)
    (ha : aDna.length = 19) (hd : dDna.length = 96) (hc : cDna.length = 32) :
    extract_oligo_parts (fwd ++ (aDna ++ dDna ++ cDna) ++ rvs) fwd rvs =
      some (aDna, dDna, cDna) := by
  unfold extract_oligo_parts
  rw [coreOf_encoded]
  have hlen : (aDna ++ dDna ++ cDna).length = 147 := by
    simp [ha, hd, hc]
  rw [if_pos (by omega)]
  have ht19 : (aDna ++ dDna ++ cDna).take 19 = aDna := by
    rw [List.append_assoc, List.take_left' ha]
  have hd19 : (aDna ++ dDna ++ cDna).drop 19 = dDna ++ cDna := by
    rw [List.append_assoc, List.drop_left' ha]
  have ht96 : ((aDna ++ dDna ++ cDna).drop 19).take 96 = dDna := by
    rw [hd19, List.take_left' hd]
  have hd115 : (aDna ++ dDna ++ cDna).drop (19 + 96) = cDna := by
    rw [← List.drop_drop, hd19, List.drop_left' hd]
  rw [ht19, ht96, hd115]

theorem flatten_nil_map {β α : Type} (l : List β) :
    (l.map (fun _ => ([] : List α))).flatten = [] := by
  induction l <;> simp_all

theorem flatten_eq_of_single {α : Type} {n b : Nat} (hb : b < n) (g : Nat → List α)
    (hg : ∀ j, j ≠ b → g j = []) :
    ((List.range n).map g).flatten = g b := by
  rw [map_range_split g hb, List.flatten_append, List.flatten_cons]
  have h1 : (List.range b).map g = (List.range b).map (fun _ => []) :=
    List.map_congr_left (fun j hj => hg j (by rw [List.mem_range] at hj; omega))
  have h2 : (List.range (n - b - 1)).map (fun j => g (b + 1 + j)) =
      (List.range (n - b - 1)).map (fun _ => []) :=
    List.map_congr_left (fun j _ => hg (b + 1 + j) (by omega))
  rw [h1, h2, flatten_nil_map, flatten_nil_map, List.nil_append, List.append_nil]

theorem segPayload_length (bits : List Bool) (k : Nat) :
    (segPayload bits 12 k).length = 96 := by
  unfold segPayload ljust96
  rw [List.length_append, List.length_replicate, List.length_take]
  omega

theorem crcBits_length (dataBits : List Bool) :
    (calculate_crc32_checksum dataBits).length = 32 :=
  pyBin_length (by norm_num) (crc32_lt _ (bitsToBytesBE_all_lt _))

theorem filter_encodeRows (B : List Nat) (S : Nat) (fwd rvs : List Base)
    (R : Nat → Nat → Bool) (b : Nat) (hb : b < numBlocks B.length S) :
    (encodeRows B S fwd rvs R).filter (fun r => r.blockIndex == b) =
      (bits_to_dna_with_crc32 (blockBits (fileBits B) S b) fwd rvs 12
          (maxAddrForBlock (fileBits B) S b) (R b)).map
        (mkRowOf b S (actualBytesOf (fileBits B) S b) B.length) := by
  unfold encodeRows
  rw [List.filter_flatten, List.map_map]
  rw [flatten_eq_of_single hb]
  · simp only [Function.comp_apply]
    rw [List.filter_map]
    have hp : ∀ o : Oligo, ((fun r : CsvRow => r.blockIndex == b) ∘
        mkRowOf b S (actualBytesOf (fileBits B) S b) B.length) o = true := by
      intro o
      simp [mkRowOf]
    rw [List.filter_congr (fun o _ => hp o), List.filter_true]
  · intro j hj
    simp only [Function.comp_apply]
    rw [List.filter_map]
    have hp : ∀ o : Oligo, ((fun r : CsvRow => r.blockIndex == b) ∘
        mkRowOf j S (actualBytesOf (fileBits B) S j) B.length) o = false := by
      intro o
      simp [mkRowOf, hj]
    rw [List.filter_congr (fun o _ => hp o), List.filter_false, List.map_nil]

theorem mkOligo_dna_parts (bits : List Bool) (fwd rvs : List Base) (R : Nat → Bool)
    (k : Nat) (hk : k + 1 < 2 ^ 19) :
    extract_oligo_parts (mkOligo bits fwd rvs 12 R k).dna fwd rvs =
      some (encode_bits_to_dna (pyBin 19 (k + 1)) (choiceSeq R (147 * k) 19) [],
        encode_bits_to_dna (segPayload bits 12 k) (choiceSeq R (147 * k + 19) 96) [],
        encode_bits_to_dna (calculate_crc32_checksum (segPayload bits 12 k))
          (choiceSeq R (147 * k + 115) 32) []) := by
  apply extract_encoded
  · rw [encode_bits_to_dna_length, pyBin_length (by norm_num) hk]
  · rw [encode_bits_to_dna_length, segPayload_length]
  · rw [encode_bits_to_dna_length, crcBits_length]

theorem mkOligo_observed_address (bits : List Bool) (fwd rvs : List Base)
    (R : Nat → Bool) (k : Nat) (hk : k + 1 < 2 ^ 19) :
    (extract_oligo_parts (mkOligo bits fwd rvs 12 R k).dna fwd rvs).map
      (fun t => bitsToNat (decode_dna_to_bits t.1)) = some (k + 1) := by
  rw [mkOligo_dna_parts bits fwd rvs R k hk]
  simp only [Option.map_some']
  rw [decode_encode_id, bitsToNat_pyBin (by norm_num) hk]

/-! ## Claim C4 -/

/-- C4: within every encoded block (of positive actual byte count), the
segment addresses observable after decode (unframing each produced oligo
and reading its 19-bit address field back as an integer) are exactly the
contiguous range `[1, ceil(actual_bytes / 12)]`, each occurring exactly
once and assigned in increasing order; address 0 is never used.  The
address-cap hypothesis reflects the 19-bit address field. -/
theorem c4_address_monotonicity (B : List Nat) (S : Nat) (fwd rvs : List Base)
    (R : Nat → Nat → Bool) (b : Nat) (hB : ∀ x ∈ B, x < 256) (hS : 0 < S)
    (hb : b < numBlocks B.length S) (hcap : (S + 12 - 1) / 12 < 2 ^ 19) :
    0 < actualBytesOf (fileBits B) S b ∧
    ((encodeRows B S fwd rvs R).filter (fun r => r.blockIndex == b)).map
        (fun r => (extract_oligo_parts r.oligo fwd rvs).map
          (fun t => bitsToNat (decode_dna_to_bits t.1)))
      = (List.range' 1 ((actualBytesOf (fileBits B) S b + 12 - 1) / 12)).map some ∧
    some 0 ∉ ((encodeRows B S fwd rvs R).filter (fun r => r.blockIndex == b)).map
        (fun r => (extract_oligo_parts r.oligo fwd rvs).map
          (fun t => bitsToNat (decode_dna_to_bits t.1))) := by
  obtain ⟨hlen8, hpos, hle, hsegs⟩ := block_params B S b hB hS hb
  have hmid : ((encodeRows B S fwd rvs R).filter (fun r => r.blockIndex == b)).map
      (fun r => (extract_oligo_parts r.oligo fwd rvs).map
        (fun t => bitsToNat (decode_dna_to_bits t.1)))
      = (List.range' 1 ((actualBytesOf (fileBits B) S b + 12 - 1) / 12)).map some := by
    rw [filter_encodeRows B S fwd rvs R b hb]
    unfold bits_to_dna_with_crc32
    rw [List.map_map, List.map_map, hsegs, List.range'_eq_map_range, List.map_map]
    refine List.map_congr_left ?_
    intro k hk
    rw [List.mem_range] at hk
    have hk19 : k + 1 < 2 ^ 19 := by
      have hmono : (actualBytesOf (fileBits B) S b + 12 - 1) / 12 ≤ (S + 12 - 1) / 12 :=
        Nat.div_le_div_right (by omega)
      omega
    have hobs := mkOligo_observed_address (blockBits (fileBits B) S b) fwd rvs
      (R b) k hk19
    simp only [Function.comp_apply]
    exact hobs.trans (by rw [Nat.add_comm])
  refine ⟨hpos, hmid, ?_⟩
  rw [hmid]
  intro hmem
  rw [List.mem_map] at hmem
  obtain ⟨x, hx, hsome⟩ := hmem
  rw [List.mem_range'_1] at hx
  have hx0 : x = 0 := by
    have := hsome.symm
    injection this with hv
    omega
  omega

/-- C4 witness: a 13-byte file with a 12-byte block size gives two
blocks; block 0 carries 12 bytes in one segment with observed address 1,
and the theorem instantiates on it. -/
theorem c4_address_monotonicity_witness :
    0 < actualBytesOf (fileBits [1, 2, 3, 4, 5, 6, 7, 8, 9, 10, 11, 12, 13]) 12 0 ∧
    ((encodeRows [1, 2, 3, 4, 5, 6, 7, 8, 9, 10, 11, 12, 13] 12 [] []
        (fun _ _ => false)).filter (fun r => r.blockIndex == 0)).map
        (fun r => (extract_oligo_parts r.oligo [] []).map
          (fun t => bitsToNat (decode_dna_to_bits t.1)))
      = (List.range' 1
          ((actualBytesOf (fileBits [1, 2, 3, 4, 5, 6, 7, 8, 9, 10, 11, 12, 13]) 12 0
            + 12 - 1) / 12)).map some ∧
    some 0 ∉ ((encodeRows [1, 2, 3, 4, 5, 6, 7, 8, 9, 10, 11, 12, 13] 12 [] []
        (fun _ _ => false)).filter (fun r => r.blockIndex == 0)).map
        (fun r => (extract_oligo_parts r.oligo [] []).map
          (fun t => bitsToNat (decode_dna_to_bits t.1))) :=
  c4_address_monotonicity [1, 2, 3, 4, 5, 6, 7, 8, 9, 10, 11, 12, 13] 12 [] []
    (fun _ _ => false) 0 (by decide) (by norm_num) (by decide) (by norm_num)

/-! ## Lemmas: the decode fold on encoder output -/

theorem processRow_good (fwd rvs : List Base) (st : DecodeState) (bits : List Bool)
    (R1 : Nat → Bool) (b S actual total k : Nat) (hk : k + 1 < 2 ^ 19) :
    processRow fwd rvs st (mkRowOf b S actual total (mkOligo bits fwd rvs 12 R1 k)) =
      { dict := dictInsert st.dict (b, k + 1) (segPayload bits 12 k)
        blockSizeBytes := S
        blockIndices := setInsert st.blockIndices b
        actualBlockSizes := sizesInsert st.actualBlockSizes b actual
        totalFileSize := total
        valid := st.valid + 1
        invalid := st.invalid
        missing := st.missing
        errors := st.errors } := by
  have hclen : (encode_bits_to_dna (calculate_crc32_checksum (segPayload bits 12 k))
      (choiceSeq R1 (147 * k + 115) 32) []).length = 32 := by
    rw [encode_bits_to_dna_length, crcBits_length]
  simp only [processRow, mkRowOf]
  simp only [mkOligo_dna_parts bits fwd rvs R1 k hk]
  rw [if_pos (by rw [hclen])]
  rw [List.take_of_length_le (le_of_eq hclen)]
  rw [decode_encode_id, decode_encode_id, decode_encode_id]
  rw [bitsToNat_pyBin (by norm_num) hk]
  rw [if_pos (by simp [verify_crc32_checksum])]

/-- Strict lexicographic order on `(block_index, address)` keys. -/
theorem dictInsert_fresh (d : List ((Nat × Nat) × List Bool)) (k : Nat × Nat)
    (v : List Bool) (h : ∀ e ∈ d, e.1 ≠ k) :
    dictInsert d k v = d ++ [(k, v)] := by
  unfold dictInsert
  rw [if_neg]
  intro hany
  rw [List.any_eq_true] at hany
  obtain ⟨e, he, hk⟩ := hany
  exact h e he (by simpa using hk)

theorem chunks_flatten (c : Nat) (hc : 0 < c) :
    ∀ (q : Nat) (bits : List Bool), (bits.length + c - 1) / c = q →
      ((List.range q).map (fun b => (bits.drop (c * b)).take c)).flatten = bits := by
  intro q
  induction q with
  | zero =>
    intro bits h
    have hlen : bits.length = 0 := by
      rcases Nat.eq_zero_or_pos bits.length with h0 | h0
      · exact h0
      · exfalso
        have : 1 ≤ (bits.length + c - 1) / c := by
          rw [Nat.le_div_iff_mul_le hc]
          omega
        omega
    rw [List.length_eq_zero.mp hlen]
    rfl
  | succ q ih =>
    intro bits h
    rw [List.range_succ_eq_map, List.map_cons, List.flatten_cons, List.map_map]
    have hpos : 0 < bits.length := by
      rcases Nat.eq_zero_or_pos bits.length with h0 | h0
      · exfalso
        rw [h0] at h
        simp only [Nat.zero_add] at h
        have : (c - 1) / c = 0 := Nat.div_eq_of_lt (by omega)
        omega
      · exact h0
    have hshift : ∀ k : Nat,
        ((bits.drop (c * Nat.succ k)).take c) = ((bits.drop c).drop (c * k)).take c := by
      intro k
      rw [List.drop_drop]
      congr 2
      rw [Nat.mul_succ]
      omega
    have hmapeq : (List.range q).map ((fun b => (bits.drop (c * b)).take c) ∘ Nat.succ) =
        (List.range q).map (fun k => ((bits.drop c).drop (c * k)).take c) := by
      refine List.map_congr_left ?_
      intro k _
      simp only [Function.comp_apply]
      exact hshift k
    rw [hmapeq]
    have hq : ((bits.drop c).length + c - 1) / c = q := by
      rw [List.length_drop]
      rcases le_or_lt bits.length c with hle | hgt
      · have h1 : (bits.length + c - 1) / c = 1 :=
          Nat.div_eq_of_lt_le (by omega) (by omega)
        have hq0 : q = 0 := by omega
        have hz : bits.length - c = 0 := by omega
        rw [hz, hq0]
        simp only [Nat.zero_add]
        exact Nat.div_eq_of_lt (by omega)
      · have heq : bits.length - c + c - 1 = bits.length - 1 := by omega
        rw [heq]
        rw [show bits.length + c - 1 = (bits.length - 1) + c by omega,
          Nat.add_div_right _ hc] at h
        omega
    rw [ih (bits.drop c) hq, Nat.mul_zero, List.drop_zero, List.take_append_drop]

theorem segPayload_flatten :
    ∀ (q : Nat) (bits : List Bool), (bits.length + 95) / 96 = q →
      ((List.range q).map (fun k => segPayload bits 12 k)).flatten =
        bits ++ List.replicate (96 * q - bits.length) false := by
  intro q
  induction q with
  | zero =>
    intro bits h
    have hlen : bits.length = 0 := by omega
    rw [List.length_eq_zero.mp hlen]
    rfl
  | succ q ih =>
    intro bits h
    rw [List.range_succ_eq_map, List.map_cons, List.flatten_cons, List.map_map]
    have hpos : 0 < bits.length := by omega
    have hshift : ∀ k : Nat,
        segPayload bits 12 (Nat.succ k) = segPayload (bits.drop 96) 12 k := by
      intro k
      unfold segPayload
      rw [List.drop_drop, show 96 + 8 * 12 * k = 8 * 12 * Nat.succ k by omega]
    have hmapeq : (List.range q).map ((fun k => segPayload bits 12 k) ∘ Nat.succ) =
        (List.range q).map (fun k => segPayload (bits.drop 96) 12 k) := by
      refine List.map_congr_left ?_
      intro k _
      simp only [Function.comp_apply]
      exact hshift k
    rw [hmapeq]
    rcases le_or_lt bits.length 96 with hle | hgt
    · have hq0 : q = 0 := by omega
      subst hq0
      simp only [List.range_zero, List.map_nil, List.flatten_nil, List.append_nil]
      unfold segPayload ljust96
      rw [show 8 * 12 * 0 = 0 by norm_num, List.drop_zero,
        List.take_of_length_le (by omega)]
    · have hq' : ((bits.drop 96).length + 95) / 96 = q := by
        rw [List.length_drop]
        omega
      rw [ih (bits.drop 96) hq']
      have h0 : segPayload bits 12 0 = bits.take 96 := by
        unfold segPayload ljust96
        rw [show (8 * 12 : Nat) = 96 by norm_num, show 96 * 0 = 0 by norm_num,
          List.drop_zero]
        have hlen96 : (bits.take 96).length = 96 := by
          rw [List.length_take]
          omega
        rw [hlen96, Nat.sub_self, List.replicate_zero, List.append_nil]
      rw [h0, ← List.append_assoc, List.take_append_drop]
      congr 1
      congr 1
      rw [List.length_drop]
      omega

theorem fold_block (fwd rvs : List Base) (bits : List Bool) (R1 : Nat → Bool)
    (b S actual total : Nat) :
    ∀ (n : Nat), n < 2 ^ 19 → ∀ st : DecodeState, (∀ e ∈ st.dict, e.1.1 < b) →
      (List.foldl (processRow fwd rvs) st
          ((List.range n).map (fun k => mkRowOf b S actual total
            (mkOligo bits fwd rvs 12 R1 k)))).dict =
        st.dict ++ (List.range n).map (fun k => ((b, k + 1), segPayload bits 12 k)) ∧
      (List.foldl (processRow fwd rvs) st
          ((List.range n).map (fun k => mkRowOf b S actual total
            (mkOligo bits fwd rvs 12 R1 k)))).totalFileSize =
        (if n = 0 then st.totalFileSize else total) := by
  intro n
  induction n with
  | zero =>
    intro _ st _
    simp
  | succ n ih =>
    intro hn st hst
    obtain ⟨ihd, iht⟩ := ih (by omega) st hst
    rw [List.range_succ, List.map_append, List.map_append, List.foldl_append]
    simp only [List.map_cons, List.map_nil, List.foldl_cons, List.foldl_nil]
    rw [processRow_good fwd rvs _ bits R1 b S actual total n (by omega)]
    constructor
    · show dictInsert _ _ _ = _
      rw [ihd, dictInsert_fresh]
      · rw [List.append_assoc]
      · intro e he hek
        rcases List.mem_append.mp he with h | h
        · have h1 := hst e h
          rw [hek] at h1
          exact lt_irrefl b h1
        · rw [List.mem_map] at h
          obtain ⟨k, hk, rfl⟩ := h
          rw [List.mem_range] at hk
          have : k + 1 = n + 1 := congrArg Prod.snd hek
          omega
    · show total = _
      rw [if_neg (by omega)]

theorem fold_blocks (B : List Nat) (S : Nat) (fwd rvs : List Base)
    (R : Nat → Nat → Bool) (hB : ∀ x ∈ B, x < 256) (hS : 0 < S)
    (hcap : (S + 12 - 1) / 12 < 2 ^ 19) :
    ∀ nb, nb ≤ numBlocks B.length S →
      (List.foldl (processRow fwd rvs) initState
          (((List.range nb).map (fun b =>
            (bits_to_dna_with_crc32 (blockBits (fileBits B) S b) fwd rvs 12
              (maxAddrForBlock (fileBits B) S b) (R b)).map
              (mkRowOf b S (actualBytesOf (fileBits B) S b) B.length))).flatten)).dict =
        ((List.range nb).map (fun b =>
          (List.range ((actualBytesOf (fileBits B) S b + 12 - 1) / 12)).map
            (fun k => ((b, k + 1), segPayload (blockBits (fileBits B) S b) 12 k)))).flatten ∧
      (List.foldl (processRow fwd rvs) initState
          (((List.range nb).map (fun b =>
            (bits_to_dna_with_crc32 (blockBits (fileBits B) S b) fwd rvs 12
              (maxAddrForBlock (fileBits B) S b) (R b)).map
              (mkRowOf b S (actualBytesOf (fileBits B) S b) B.length))).flatten)).totalFileSize =
        (if nb = 0 then 0 else B.length) := by
  intro nb
  induction nb with
  | zero =>
    intro _
    simp [initState]
  | succ nb ih =>
    intro hnb
    obtain ⟨ihd, iht⟩ := ih (by omega)
    obtain ⟨hlen8, hpos, hle, hsegs⟩ := block_params B S nb hB hS (by omega)
    rw [List.range_succ, List.map_append, List.map_append, List.flatten_append,
      List.flatten_append, List.foldl_append]
    simp only [List.map_cons, List.map_nil, List.flatten_cons, List.flatten_nil,
      List.append_nil]
    rw [show (bits_to_dna_with_crc32 (blockBits (fileBits B) S nb) fwd rvs 12
        (maxAddrForBlock (fileBits B) S nb) (R nb)).map
        (mkRowOf nb S (actualBytesOf (fileBits B) S nb) B.length) =
        (List.range ((actualBytesOf (fileBits B) S nb + 12 - 1) / 12)).map
          (fun k => mkRowOf nb S (actualBytesOf (fileBits B) S nb) B.length
            (mkOligo (blockBits (fileBits B) S nb) fwd rvs 12 (R nb) k)) from by
      unfold bits_to_dna_with_crc32
      rw [List.map_map, hsegs]
      rfl]
    have hsegs19 : (actualBytesOf (fileBits B) S nb + 12 - 1) / 12 < 2 ^ 19 := by
      have hmono : (actualBytesOf (fileBits B) S nb + 12 - 1) / 12 ≤ (S + 12 - 1) / 12 :=
        Nat.div_le_div_right (by omega)
      omega
    have hkeys : ∀ e ∈ (List.foldl (processRow fwd rvs) initState
        (((List.range nb).map (fun b =>
          (bits_to_dna_with_crc32 (blockBits (fileBits B) S b) fwd rvs 12
            (maxAddrForBlock (fileBits B) S b) (R b)).map
            (mkRowOf b S (actualBytesOf (fileBits B) S b) B.length))).flatten)).dict,
        e.1.1 < nb := by
      rw [ihd]
      intro e he
      rw [List.mem_flatten] at he
      obtain ⟨l, hl, hel⟩ := he
      rw [List.mem_map] at hl
      obtain ⟨b', hb', rfl⟩ := hl
      rw [List.mem_range] at hb'
      rw [List.mem_map] at hel
      obtain ⟨k, _, rfl⟩ := hel
      simpa using hb'
    obtain ⟨hd2, ht2⟩ := fold_block fwd rvs (blockBits (fileBits B) S nb) (R nb)
      nb S (actualBytesOf (fileBits B) S nb) B.length
      ((actualBytesOf (fileBits B) S nb + 12 - 1) / 12) hsegs19 _ hkeys
    constructor
    · rw [hd2, ihd]
    · rw [ht2, if_neg (by omega), if_neg (by omega)]

theorem sortLe_eq_self {α : Type} (le : α → α → Bool) :
    ∀ l : List α, l.Pairwise (fun a b => le a b = true) → sortLe le l = l
  | [], _ => rfl
  | x :: xs, h => by
    have hx := (List.pairwise_cons.mp h).1
    have hxs := (List.pairwise_cons.mp h).2
    show insertLe le x (sortLe le xs) = x :: xs
    rw [sortLe_eq_self le xs hxs]
    cases xs with
    | nil => rfl
    | cons y ys =>
      unfold insertLe
      rw [if_pos (hx y (List.mem_cons_self _ _))]

theorem dictGet_map_keys :
    ∀ (E : List ((Nat × Nat) × List Bool)), E.Pairwise (fun a b => a.1 ≠ b.1) →
      (E.map (fun e => e.1)).map (dictGet E) = E.map (fun e => e.2)
  | [], _ => rfl
  | e₀ :: E, h => by
    have h1 := (List.pairwise_cons.mp h).1
    have h2 := (List.pairwise_cons.mp h).2
    rw [List.map_cons, List.map_cons, List.map_cons]
    congr 1
    · unfold dictGet
      rw [List.find?_cons_of_pos _ (by simp)]
      rfl
    · have hcongr : ∀ k ∈ E.map (fun e => e.1), dictGet (e₀ :: E) k = dictGet E k := by
        intro k hk
        rw [List.mem_map] at hk
        obtain ⟨e, he, rfl⟩ := hk
        unfold dictGet
        rw [List.find?_cons_of_neg]
        simp [h1 e he]
      rw [List.map_congr_left hcongr, dictGet_map_keys E h2]

theorem flatten_entries_pairwise {β : Type} (nb : Nat) (segs : Nat → Nat)
    (v : Nat → Nat → β) :
    (((List.range nb).map (fun b => (List.range (segs b)).map
        (fun k => ((b, k + 1), v b k)))).flatten).Pairwise
      (fun a b => a.1.1 < b.1.1 ∨ (a.1.1 = b.1.1 ∧ a.1.2 < b.1.2)) := by
  rw [List.pairwise_flatten]
  constructor
  · intro l hl
    rw [List.mem_map] at hl
    obtain ⟨b, _, rfl⟩ := hl
    rw [List.pairwise_map]
    refine List.Pairwise.imp ?_ (List.pairwise_lt_range _)
    intro k k' hkk
    right
    refine ⟨rfl, ?_⟩
    show k + 1 < k' + 1
    omega
  · rw [List.pairwise_map]
    refine List.Pairwise.imp ?_ (List.pairwise_lt_range _)
    intro b b' hbb x hx y hy
    rw [List.mem_map] at hx hy
    obtain ⟨k, _, rfl⟩ := hx
    obtain ⟨k', _, rfl⟩ := hy
    left
    exact hbb

theorem fileBits_chunk :
    ∀ (B : List Nat) (j : Nat), (∀ x ∈ B, x < 256) → j < B.length →
      ((fileBits B).drop (8 * j)).take 8 = byteToBits (B.getD j 0) := by
  intro B
  induction B with
  | nil =>
    intro j _ hj
    simp at hj
  | cons x t ih =>
    intro j hB hj
    have hx : x < 256 := hB x (List.mem_cons_self _ _)
    cases j with
    | zero =>
      show ((fileBits (x :: t)).drop 0).take 8 = byteToBits x
      unfold fileBits
      rw [List.map_cons, List.flatten_cons, List.drop_zero,
        List.take_left' (byteToBits_length hx)]
    | succ j =>
      show ((fileBits (x :: t)).drop (8 * (j + 1))).take 8 = byteToBits (t.getD j 0)
      unfold fileBits
      rw [List.map_cons, List.flatten_cons]
      have hsplit : 8 * (j + 1) = (byteToBits x).length + 8 * j := by
        rw [byteToBits_length hx]
        ring
      rw [hsplit, ← List.drop_drop, List.drop_left]
      exact ih j (fun y hy => hB y (List.mem_cons_of_mem _ hy)) (by simpa using hj)

theorem bitsToBytesBE_fileBits (B : List Nat) (hB : ∀ x ∈ B, x < 256) :
    bitsToBytesBE (fileBits B) = B := by
  rw [bitsToBytesBE_eq_chunkVals _ B.length (fileBits_length B hB)]
  apply List.ext_getElem
  · simp
  · intro j h1 h2
    simp only [List.getElem_map, List.getElem_range]
    have hjlen : j < B.length := by simpa using h2
    rw [fileBits_chunk B j hB hjlen]
    have hmem : B.getD j 0 = B[j] := by
      rw [List.getD_eq_getElem?_getD, List.getElem?_eq_getElem hjlen, Option.getD_some]
    rw [hmem, bitsToNat_byteToBits (hB _ (List.getElem_mem _))]

theorem fileBits_chunks_flatten (B : List Nat) (S : Nat) (hB : ∀ x ∈ B, x < 256)
    (hS : 0 < S) :
    ((List.range (numBlocks B.length S)).map
      (fun b => blockBits (fileBits B) S b)).flatten = fileBits B := by
  have hlen := fileBits_length B hB
  have hmap : (List.range (numBlocks B.length S)).map
      (fun b => blockBits (fileBits B) S b) =
      (List.range (numBlocks B.length S)).map
        (fun b => ((fileBits B).drop ((S * 8) * b)).take (S * 8)) := by
    refine List.map_congr_left ?_
    intro b _
    unfold blockBits
    rw [show b * S * 8 = (S * 8) * b by ring]
  rw [hmap]
  refine chunks_flatten (S * 8) (by omega) (numBlocks B.length S) (fileBits B) ?_
  rw [hlen]
  unfold numBlocks
  have h1 : 8 * B.length + S * 8 - 1 = 8 * (B.length + S - 1) + 7 := by omega
  rw [h1, show (S * 8 : Nat) = 8 * S by ring, ← Nat.div_div_eq_div_mul,
    Nat.mul_add_div (by norm_num)]
  norm_num

theorem encode_payloads_flatten (B : List Nat) (S : Nat) (hB : ∀ x ∈ B, x < 256)
    (hS : 0 < S) (hdvd : 12 ∣ S) (hBne : B ≠ []) :
    ∃ pad, ((List.range (numBlocks B.length S)).map (fun b =>
        ((List.range ((actualBytesOf (fileBits B) S b + 12 - 1) / 12)).map
          (fun k => segPayload (blockBits (fileBits B) S b) 12 k)).flatten)).flatten =
      fileBits B ++ List.replicate pad false := by
  have hBlen : 0 < B.length := List.length_pos.mpr hBne
  have hnb : 1 ≤ numBlocks B.length S := by
    unfold numBlocks
    rw [Nat.le_div_iff_mul_le hS]
    omega
  have hblock : ∀ b, b < numBlocks B.length S →
      ((List.range ((actualBytesOf (fileBits B) S b + 12 - 1) / 12)).map
        (fun k => segPayload (blockBits (fileBits B) S b) 12 k)).flatten =
      blockBits (fileBits B) S b ++
        List.replicate (96 * ((actualBytesOf (fileBits B) S b + 12 - 1) / 12) -
          (blockBits (fileBits B) S b).length) false := by
    intro b hb
    obtain ⟨hlen8, hpos, hle, _⟩ := block_params B S b hB hS hb
    apply segPayload_flatten
    omega
  have hpadzero : ∀ b, b + 1 < numBlocks B.length S →
      96 * ((actualBytesOf (fileBits B) S b + 12 - 1) / 12) -
        (blockBits (fileBits B) S b).length = 0 := by
    intro b hb1
    obtain ⟨hlen8, hpos, hle, _⟩ := block_params B S b hB hS (by omega)
    have hmul := mul_lt_of_lt_numBlocks hS hb1
    have hbl : (blockBits (fileBits B) S b).length =
        min (S * 8) (8 * B.length - b * S * 8) := by
      rw [blockBits_length, fileBits_length B hB]
    obtain ⟨m, hm⟩ := hdvd
    have h4 : (b + 1) * S = b * S + S := by ring
    have h5 : b * S * 8 = 8 * (b * S) := by ring
    rw [h5] at hbl
    omega
  refine ⟨96 * ((actualBytesOf (fileBits B) S (numBlocks B.length S - 1) + 12 - 1) / 12) -
    (blockBits (fileBits B) S (numBlocks B.length S - 1)).length, ?_⟩
  have hsplit : numBlocks B.length S = (numBlocks B.length S - 1) + 1 := by omega
  rw [hsplit, List.range_succ, List.map_append, List.flatten_append,
    List.map_cons, List.map_nil, List.flatten_cons, List.flatten_nil,
    List.append_nil]
  rw [hblock (numBlocks B.length S - 1) (by omega)]
  have hpre : (List.range (numBlocks B.length S - 1)).map (fun b =>
      ((List.range ((actualBytesOf (fileBits B) S b + 12 - 1) / 12)).map
        (fun k => segPayload (blockBits (fileBits B) S b) 12 k)).flatten) =
      (List.range (numBlocks B.length S - 1)).map
        (fun b => blockBits (fileBits B) S b) := by
    refine List.map_congr_left ?_
    intro b hb
    rw [List.mem_range] at hb
    rw [hblock b (by omega), hpadzero b (by omega), List.replicate_zero,
      List.append_nil]
  rw [hpre, ← List.append_assoc]
  have hjoin : ((List.range (numBlocks B.length S - 1)).map
      (fun b => blockBits (fileBits B) S b)).flatten ++
      blockBits (fileBits B) S (numBlocks B.length S - 1) =
      ((List.range (numBlocks B.length S)).map
        (fun b => blockBits (fileBits B) S b)).flatten := by
    conv_rhs => rw [hsplit]
    rw [List.range_succ, List.map_append, List.flatten_append, List.map_cons,
      List.map_nil, List.flatten_cons, List.flatten_nil, List.append_nil]
  rw [hjoin, fileBits_chunks_flatten B S hB hS]
  simp only [Nat.add_sub_cancel]

theorem decodedBytes_encodeRows (B : List Nat) (S : Nat) (fwd rvs : List Base)
    (R : Nat → Nat → Bool) (hB : ∀ x ∈ B, x < 256) (hS : 0 < S) (hdvd : 12 ∣ S)
    (hcap : (S + 12 - 1) / 12 < 2 ^ 19) :
    decodedBytes (encodeRows B S fwd rvs R) fwd rvs = B := by
  by_cases hBnil : B = []
  · subst hBnil
    have h0 : numBlocks (List.length ([] : List Nat)) S = 0 := by
      unfold numBlocks
      simp only [List.length_nil, Nat.zero_add]
      exact Nat.div_eq_of_lt (by omega)
    unfold decodedBytes decode_oligos_from_csv encodeRows
    rw [h0]
    simp [initState]
  · have hBlen : 0 < B.length := List.length_pos.mpr hBnil
    have hnb : 1 ≤ numBlocks B.length S := by
      unfold numBlocks
      rw [Nat.le_div_iff_mul_le hS]
      omega
    have hfl : (fileBits B).length = 8 * B.length := fileBits_length B hB
    obtain ⟨hdict, htfs⟩ :=
      fold_blocks B S fwd rvs R hB hS hcap (numBlocks B.length S) le_rfl
    have hstd : (decode_oligos_from_csv (encodeRows B S fwd rvs R) fwd rvs).dict =
        ((List.range (numBlocks B.length S)).map (fun b =>
          (List.range ((actualBytesOf (fileBits B) S b + 12 - 1) / 12)).map
            (fun k => ((b, k + 1), segPayload (blockBits (fileBits B) S b) 12 k)))).flatten := by
      unfold decode_oligos_from_csv encodeRows
      exact hdict
    have hstt : (decode_oligos_from_csv (encodeRows B S fwd rvs R) fwd rvs).totalFileSize
        = B.length := by
      unfold decode_oligos_from_csv encodeRows
      rw [htfs, if_neg (by omega)]
    set E := ((List.range (numBlocks B.length S)).map (fun b =>
      (List.range ((actualBytesOf (fileBits B) S b + 12 - 1) / 12)).map
        (fun k => ((b, k + 1), segPayload (blockBits (fileBits B) S b) 12 k)))).flatten
      with hE
    have hpw := flatten_entries_pairwise (numBlocks B.length S)
      (fun b => (actualBytesOf (fileBits B) S b + 12 - 1) / 12)
      (fun b k => segPayload (blockBits (fileBits B) S b) 12 k)
    rw [← hE] at hpw
    have hEne : E ≠ [] := by
      have hmem : ((0, 1), segPayload (blockBits (fileBits B) S 0) 12 0) ∈ E := by
        rw [hE, List.mem_flatten]
        refine ⟨_, List.mem_map.mpr ⟨0, List.mem_range.mpr (by omega), rfl⟩, ?_⟩
        refine List.mem_map.mpr ⟨0, List.mem_range.mpr ?_, rfl⟩
        obtain ⟨_, hpos0, _, _⟩ := block_params B S 0 hB hS (by omega)
        omega
      exact List.ne_nil_of_mem hmem
    have hsorted : sortLe lexLe (E.map (fun e => e.1)) = E.map (fun e => e.1) := by
      apply sortLe_eq_self
      rw [List.pairwise_map]
      refine List.Pairwise.imp ?_ hpw
      intro a b hab
      unfold lexLe
      rcases hab with h | ⟨h1, h2⟩
      · simp [h]
      · simp [h1]
        omega
    have hdistinct : E.Pairwise (fun a b => a.1 ≠ b.1) := by
      refine List.Pairwise.imp ?_ hpw
      intro a b hab heq
      rcases hab with h | ⟨h1, h2⟩
      · rw [heq] at h
        exact lt_irrefl _ h
      · rw [heq] at h2
        exact lt_irrefl _ h2
    have hget := dictGet_map_keys E hdistinct
    obtain ⟨pad, hpad⟩ := encode_payloads_flatten B S hB hS hdvd hBnil
    have hEvals : (E.map (fun e => e.2)).flatten = fileBits B ++ List.replicate pad false := by
      rw [hE, List.map_flatten, List.map_map]
      have hinner : (List.range (numBlocks B.length S)).map
          ((List.map (fun e : (Nat × Nat) × List Bool => e.2)) ∘ (fun b =>
            (List.range ((actualBytesOf (fileBits B) S b + 12 - 1) / 12)).map
              (fun k => ((b, k + 1), segPayload (blockBits (fileBits B) S b) 12 k)))) =
          (List.range (numBlocks B.length S)).map (fun b =>
            (List.range ((actualBytesOf (fileBits B) S b + 12 - 1) / 12)).map
              (fun k => segPayload (blockBits (fileBits B) S b) 12 k)) := by
        refine List.map_congr_left ?_
        intro b _
        simp only [Function.comp_apply, List.map_map]
        rfl
      rw [hinner, List.flatten_flatten, List.map_map]
      have houter : (List.range (numBlocks B.length S)).map
          (List.flatten ∘ (fun b =>
            (List.range ((actualBytesOf (fileBits B) S b + 12 - 1) / 12)).map
              (fun k => segPayload (blockBits (fileBits B) S b) 12 k))) =
          (List.range (numBlocks B.length S)).map (fun b =>
            ((List.range ((actualBytesOf (fileBits B) S b + 12 - 1) / 12)).map
              (fun k => segPayload (blockBits (fileBits B) S b) 12 k)).flatten) := by
        refine List.map_congr_left ?_
        intro b _
        rfl
      rw [houter]
      exact hpad
    have hreass : reassembledBits
        (decode_oligos_from_csv (encodeRows B S fwd rvs R) fwd rvs) = fileBits B := by
      unfold reassembledBits
      rw [hstd, hstt, if_pos hBlen, hsorted, hget, hEvals,
        show B.length * 8 = 8 * B.length by ring]
      exact List.take_left' hfl
    unfold decodedBytes
    rw [hstd, if_neg hEne, hreass, hfl,
      show (8 : Nat) * B.length / 8 = B.length from by omega, if_neg (by omega),
      show 8 * B.length = (fileBits B).length from hfl.symm, List.take_length]
    exact bitsToBytesBE_fileBits B hB

/-- C1 (amended): round trip holds when the block size `S` is a positive
multiple of 12 (the per-oligo payload byte count), the per-block segment
count `⌈S/12⌉` fits the 19-bit address field, and the primers pass
`encode_file_to_dna`'s validation (each empty or exactly 22 bases, so the
call returns rows instead of raising): for every byte sequence `B` and
every synonym choice `R`, decoding the emitted rows yields exactly `B`.
For `S` not a multiple of 12 the claim as stated is false on multi-block
inputs (see the counterexample): the zero padding of each non-final
block's last segment lands in the middle of the reassembled bit stream,
and the final truncation to `total_file_size * 8` bits only removes
trailing bits. -/
theorem c1_round_trip (B : List Nat) (S : Nat) (fwd rvs : List Base)
    (R : Nat → Nat → Bool) (rows : List CsvRow)
    (hB : ∀ x ∈ B, x < 256) (hS : 0 < S) (hdvd : 12 ∣ S)
    (hcap : (S + 12 - 1) / 12 < 2 ^ 19)
    (henc : encode_file_to_dna B S fwd rvs R = some rows) :
    decodedBytes rows fwd rvs = B := by
  unfold encode_file_to_dna at henc
  by_cases hp : primersOk fwd rvs
  · rw [if_pos hp] at henc
    injection henc with h
    rw [← h]
    exact decodedBytes_encodeRows B S fwd rvs R hB hS hdvd hcap
  · rw [if_neg hp] at henc
    exact absurd henc (by simp)

set_option maxRecDepth 80000 in
/-- C1 counterexample to the unamended claim: for `B = [0, 1]` and block
size `S = 1` (not a multiple of 12), encoding succeeds and decoding the
emitted rows yields `[0, 0]`, not `B`: the first block's single payload is
zero-padded to 96 bits, those padding bits are reassembled ahead of the
second block's data, and the final truncation only drops trailing bits. -/
theorem c1_counterexample :
    (encode_file_to_dna [0, 1] 1 [] [] (fun _ _ => false)).map
      (fun rows => decodedBytes rows [] []) = some [0, 0] := by decide

set_option maxRecDepth 80000 in
theorem c1_round_trip_witness :
    decodedBytes (encodeRows [65] 12 [] [] (fun _ _ => false)) [] [] = [65] :=
  c1_round_trip [65] 12 [] [] (fun _ _ => false) _ (by decide) (by decide)
    (by decide) (by decide) (by decide)

end ChurchMolFS
